import Mathlib

/-!
Verification development for the AGEN8_FLOW workflow execution engine
(`src/lib/execution/engine.ts`, class `ExecutionEngine`).

The engine is shallowly embedded: JS runtime values become the `Value`
inductive, JS objects become insertion-ordered association lists, the
mutable `execution` / `nodeOutputs` state is threaded explicitly, and JS
exceptions become an `Option String` (the thrown error message) carried
next to the state, since in JS all mutations performed before a throw
persist.  Wall-clock fields (`startTime`, `endTime`, `duration`, log
`id`/`timestamp`) and the network capability are not modelled; blocks are
modelled as pure functions of the run context they receive.  JS objects
are modelled as prototype-free maps (own properties only), except that
string and array primitives keep their index and `length` properties,
which plain property access can reach.
-/

namespace Agen8

/- JSON-like JS runtime values flowing through the engine.  Arrays and
objects carry their own list types so that all recursions stay structural. -/
mutual
inductive Value where
  | vNull : Value
  | vBool (b : Bool) : Value
  | vNum (n : Int) : Value
  | vStr (s : String) : Value
  | vArr (xs : ValueList) : Value
  | vObj (fs : ValueFields) : Value
inductive ValueList where
  | nil : ValueList
  | cons (v : Value) (tl : ValueList) : ValueList
inductive ValueFields where
  | nil : ValueFields
  | cons (k : String) (v : Value) (tl : ValueFields) : ValueFields
end

/-- Lookup of an own property in a JS object (first binding wins;
engine-built objects never carry duplicate keys). -/
def fGet : ValueFields → String → Option Value
  | .nil, _ => none
  | .cons k v tl, key => if k = key then some v else fGet tl key

/-- JS assignment `o[k] = v`: update in place, else append (insertion order). -/
def fSet : ValueFields → String → Value → ValueFields
  | .nil, key, val => .cons key val .nil
  | .cons k v tl, key, val =>
    if k = key then .cons k val tl else .cons k v (fSet tl key val)

/-- JS object spread `\x7b...a, ...b\x7d`: fields of `b` assigned over `a` in order. -/
def fMerge : ValueFields → ValueFields → ValueFields
  | acc, .nil => acc
  | acc, .cons k v tl => fMerge (fSet acc k v) tl

def lGet : ValueList → Nat → Option Value
  | .nil, _ => none
  | .cons v _, 0 => some v
  | .cons _ tl, n + 1 => lGet tl n

def lLength : ValueList → Nat
  | .nil => 0
  | .cons _ tl => lLength tl + 1

/-- Generic JS `Record<string, α>` as an insertion-ordered association list. -/
def aGet {α : Type} : List (String × α) → String → Option α
  | [], _ => none
  | (k', v) :: tl, k => if k' = k then some v else aGet tl k

def aSet {α : Type} : List (String × α) → String → α → List (String × α)
  | [], k, v => [(k, v)]
  | (k', v') :: tl, k, v =>
    if k' = k then (k, v) :: tl else (k', v') :: aSet tl k v

/-- The whitespace class trimmed by `String.prototype.trim` (ASCII part). -/
def isJsWs (c : Char) : Bool :=
  c = ' ' || c = '\t' || c = '\n' || c = '\r' || c = '\x0b' || c = '\x0c'

def jsTrimChars (cs : List Char) : List Char :=
  ((cs.dropWhile isJsWs).reverse.dropWhile isJsWs).reverse

def jsTrim (s : String) : String := String.mk (jsTrimChars s.data)

/-- `String.prototype.split` on a dot, as in `path.split('.')`. -/
def splitDotsAux : List Char → List Char → List String
  | [], acc => [String.mk acc.reverse]
  | c :: tl, acc =>
    if c = '.' then String.mk acc.reverse :: splitDotsAux tl []
    else splitDotsAux tl (c :: acc)

def splitDots (s : String) : List String := splitDotsAux s.data []

/-- `Array.prototype.join('.')`, as in `rest.join('.')`. -/
def joinDots : List String → String
  | [] => ""
  | [s] => s
  | s :: tl => s ++ "." ++ joinDots tl

def parseDigitsAux : List Char → Nat → Option Nat
  | [], acc => some acc
  | c :: tl, acc =>
    if c.isDigit then parseDigitsAux tl (acc * 10 + (c.toNat - '0'.toNat))
    else none

/-- Canonical JS array-index property names: `"0"`, `"1"`, ... with no
leading zeros.  These are the keys under which strings and arrays expose
their elements to plain `obj[key]` access. -/
def toIndex (s : String) : Option Nat :=
  match s.data with
  | [] => none
  | c :: tl =>
    if c = '0' then (if tl = [] then some 0 else none)
    else if c.isDigit then parseDigitsAux (c :: tl) 0
    else none

/- JS `String(v)` stringification. -/
mutual
def jsString : Value → String
  | .vNull => "null"
  | .vBool b => if b then "true" else "false"
  | .vNum n => toString n
  | .vStr s => s
  | .vArr xs => jsStringList xs
  | .vObj _ => "[object Object]"
def jsStringList : ValueList → String
  | .nil => ""
  | .cons v tl =>
    let head := match v with
      | .vNull => ""
      | _ => jsString v
    match tl with
    | .nil => head
    | _ => head ++ "," ++ jsStringList tl
end

/-- `v != null ? String(v) : ''` — loose inequality excludes both
`undefined` (here `none`) and `null`. -/
def jsDisplay : Option Value → String
  | none => ""
  | some .vNull => ""
  | some v => jsString v

def jsFalsy : Value → Bool
  | .vNull => true
  | .vBool b => !b
  | .vNum n => n == 0
  | .vStr s => s == ""
  | .vArr _ => false
  | .vObj _ => false

/-- `typeof v === 'object'` (true for objects, arrays, and `null`). -/
def jsTypeofObject : Value → Bool
  | .vNull => true
  | .vArr _ => true
  | .vObj _ => true
  | _ => false

/-- Plain JS property access `cur[p]` as performed by `getByPath`: own
properties of objects, plus index/`length` access on arrays and string
primitives.  Prototype-inherited members are not modelled. -/
def jsGetProp : Value → String → Option Value
  | .vObj fs, p => fGet fs p
  | .vArr xs, p =>
    if p = "length" then some (.vNum (lLength xs))
    else match toIndex p with
      | some i => lGet xs i
      | none => none
  | .vStr s, p =>
    if p = "length" then some (.vNum s.length)
    else match toIndex p with
      | some i => (s.data.get? i).map (fun c => .vStr (String.mk [c]))
      | none => none
  | _, _ => none

/-- The loop body of `getByPath`: `if (!cur) return undefined; cur = cur[p]`
for each part (both branches of the source's `if/else` assign `next` to
`cur`), and finally `return cur`. -/
def pathGo : Option Value → List String → Option Value
  | cur, [] => cur
  | none, _ :: _ => none
  | some v, p :: ps => if jsFalsy v then none else pathGo (jsGetProp v p) ps

/-- `getByPath(obj, path)` from `executeNode`. -/
def getByPath (obj : Value) (path : String) : Option Value :=
  if jsFalsy obj || !jsTypeofObject obj then none
  else pathGo (some obj) (splitDots path)

abbrev Env := List (String × String)
abbrev Store := List (String × ValueFields)
abbrev AliasMap := List (String × Option String)

/-- Per-node resolution context for `resolveTemplatesDeep`. -/
structure ResCtx where
  env : Env
  prevId : Option String
  aliasMap : AliasMap
  store : Store

/-- JS truthiness filter on an optional string (`""` is falsy), as in
`if (!prevId) return ''`. -/
def prevTruthy : Option String → Option String
  | some p => if p = "" then none else some p
  | none => none

/-- Resolution of one placeholder after the split on the first dot into
`root` and `path` (the dot path). -/
def resolveRoot (rc : ResCtx) (root path : String) : String :=
  if root = "" then ""
  else if root = "env" then
    (if path = "" then "" else ((aGet rc.env path).getD ""))
  else if root = "prev" then
    match prevTruthy rc.prevId with
    | none => ""
    | some p =>
      if path = "" then jsDisplay ((aGet rc.store p).map Value.vObj)
      else jsDisplay (getByPath (.vObj ((aGet rc.store p).getD .nil)) path)
  else
    let targetId : Option String :=
      match aGet rc.aliasMap root with
      | none => some root
      | some none => none
      | some (some tid) => some tid
    match targetId with
    | none => ""
    | some tid =>
      match aGet rc.store tid with
      | none => ""
      | some outputs =>
        if path = "" then jsDisplay (some (.vObj outputs))
        else jsDisplay (getByPath (.vObj outputs) path)

/-- The replacement callback of `resolveTemplatesDeep`: resolve one
`\x7b\x7b expr \x7d\x7d` placeholder body — trim it, split on the first
dot into `root` and the remaining dot path, and dispatch. -/
def resolveExpr (rc : ResCtx) (expr : String) : String :=
  let raw := jsTrim expr
  let parts := splitDots raw
  resolveRoot rc (parts.headD "") (joinDots parts.tail)

/-- The scanner of `val.replace(<placeholder regex>, cb)`: a match needs
two opening braces, a non-empty run of non-closing-brace characters, and
two closing braces; on failure the scan advances one character, exactly
as the regex engine does. Fuel is the remaining character count. -/
def rtCharsF (f : String → String) : Nat → List Char → List Char
  | 0, cs => cs
  | fuel + 1, cs =>
    match cs with
    | '{' :: '{' :: rest =>
      let cap := rest.takeWhile (fun c => c ≠ '}')
      (match rest.drop cap.length with
       | '}' :: '}' :: tail =>
         if cap.isEmpty then '{' :: rtCharsF f fuel ('{' :: rest)
         else (f (String.mk cap)).data ++ rtCharsF f fuel tail
       | _ => '{' :: rtCharsF f fuel ('{' :: rest))
    | c :: rest => c :: rtCharsF f fuel rest
    | [] => []

def applyTemplates (f : String → String) (s : String) : String :=
  String.mk (rtCharsF f s.data.length s.data)

/-- String-level template resolution (the `typeof val === 'string'` branch). -/
def resolveString (rc : ResCtx) (s : String) : String :=
  applyTemplates (resolveExpr rc) s

/- `resolveTemplatesDeep`: recursively resolve strings inside arrays and
objects, identity on other scalars. -/
mutual
def resolveTemplatesDeep (rc : ResCtx) : Value → Value
  | .vStr s => .vStr (resolveString rc s)
  | .vArr xs => .vArr (resolveDeepList rc xs)
  | .vObj fs => .vObj (resolveDeepObj rc fs)
  | v => v
def resolveDeepList (rc : ResCtx) : ValueList → ValueList
  | .nil => .nil
  | .cons v tl => .cons (resolveTemplatesDeep rc v) (resolveDeepList rc tl)
def resolveDeepObj (rc : ResCtx) : ValueFields → ValueFields
  | .nil => .nil
  | .cons k v tl => .cons k (resolveTemplatesDeep rc v) (resolveDeepObj rc tl)
end

/-! ## Engine data model (`src/lib/types`, as consumed by the engine) -/

structure WorkflowNode where
  id : String
  type : String
  data : ValueFields

structure WorkflowEdge where
  id : String
  source : String
  target : String

structure Workflow where
  id : String
  name : String
  starterId : String
  nodes : List WorkflowNode
  edges : List WorkflowEdge

inductive LogLevel where
  | info | warn | error
deriving DecidableEq

structure ExecutionLog where
  nodeId : Option String
  message : String
  level : LogLevel
deriving DecidableEq

inductive NodeStatus where
  | running | success | error
deriving DecidableEq

inductive ExecStatus where
  | running | success | error | cancelled
deriving DecidableEq

structure NodeExecution where
  nodeId : String
  status : NodeStatus
  outputs : Option ValueFields
  error : Option String

structure WorkflowExecution where
  id : String
  workflowId : String
  status : ExecStatus
  logs : List ExecutionLog
  nodeExecutions : List (String × NodeExecution)

/-- The run context handed to a block's `run`, with its data fields made
explicit (`fetch`, `log` and `abortSignal` are not modelled; the two
output accessors are the functions below over the `store` snapshot). -/
structure RunCtx where
  workflowId : String
  nodeId : String
  inputs : Value
  env : Env
  store : Store
  prevId : Option String
  isSingleNodeExecution : Bool

/-- JS truthiness of the optional `key` argument (`""` is falsy), as in
`return key ? outputs?.[key] : outputs`. -/
def truthyKey : Option String → Option String
  | some k => if k = "" then none else some k
  | none => none

def storeToFields : Store → ValueFields
  | [] => .nil
  | (k, o) :: tl => .cons k (.vObj o) (storeToFields tl)

/-- `getNodeOutput(nodeId, key?)` of the run context. -/
def RunCtx.getNodeOutput (c : RunCtx) (nodeId : String) (key : Option String) : Option Value :=
  if nodeId = "*" then some (.vObj (storeToFields c.store))
  else
    let nid := match (if nodeId = "prev" then prevTruthy c.prevId else none) with
      | some p => p
      | none => nodeId
    match aGet c.store nid with
    | none => none
    | some outputs =>
      match truthyKey key with
      | some k => fGet outputs k
      | none => some (.vObj outputs)

/-- Outcome of a block's `run`: the value it returned or the message it
threw, together with the `setNodeOutput(key, value)` calls it made, in
order, during the run. -/
inductive BlockResult where
  | ok (sets : List (String × Value)) (result : Value)
  | err (sets : List (String × Value)) (msg : String)

/-- Engine dependencies: the block registry (`getBlockConfig`, `none`
covering both a missing block and a missing `run`), the two progress
callbacks modelled by the message they throw (if any), and the dequeue
index from which `stop()` has set the abort signal. -/
structure EngCfg where
  registry : String → Option (RunCtx → BlockResult)
  onLogFail : ExecutionLog → Option String
  onNodeUpdateFail : String → NodeExecution → Option String
  abortFrom : Option Nat

/-- `prevId`: the single incoming edge's source, if in-degree is exactly 1. -/
def computePrevId (w : Workflow) (nodeId : String) : Option String :=
  match (w.edges.filter (fun e => e.target == nodeId)).map (fun e => e.source) with
  | [s] => some s
  | _ => none

/-- `??` — nullish coalescing skips both `undefined` and `null`. -/
def nullish : Option Value → Option Value
  | some .vNull => none
  | o => o

/-- `String((n.data)?.alias ?? (n.data)?.refName ?? n.type).trim()`. -/
def aliasName (n : WorkflowNode) : String :=
  jsTrim (match nullish (fGet n.data "alias") with
    | some v => jsString v
    | none =>
      match nullish (fGet n.data "refName") with
      | some v => jsString v
      | none => n.type)

def buildAliasStep (m : AliasMap) (n : WorkflowNode) : AliasMap :=
  let a := aliasName n
  if a = "" then m
  else
    match aGet m a with
    | none => aSet m a (some n.id)
    | some _ => aSet m a none

/-- The alias-map construction loop of `executeWorkflow` (`null` = the
ambiguity marker). -/
def buildAliasMap (nodes : List WorkflowNode) : AliasMap :=
  nodes.foldl buildAliasStep []

/-- `getConnectedNodes`: targets of outgoing edges, returned in node-list
declaration order. -/
def getConnectedNodes (w : Workflow) (fromNodeId : String) : List WorkflowNode :=
  let connectedNodeIds := (w.edges.filter (fun e => e.source == fromNodeId)).map (fun e => e.target)
  w.nodes.filter (fun n => connectedNodeIds.contains n.id)

/-! ## Engine state and node execution -/

/-- The state mutated by `executeNode`: the execution snapshot, the shared
output store, and a ghost trace of the contexts passed to block `run`s. -/
structure ExecSt where
  ex : WorkflowExecution
  store : Store
  ctxs : List RunCtx

/-- `this.log(execution, level, message, nodeId?)`: append the entry, then
fire `onLog` (whose thrown message, if any, propagates to the caller). -/
def logE (cfg : EngCfg) (st : ExecSt) (level : LogLevel) (message : String) (nodeId : Option String) : ExecSt × Option String :=
  let entry : ExecutionLog := ⟨nodeId, message, level⟩
  ({ st with ex := { st.ex with logs := st.ex.logs ++ [entry] } }, cfg.onLogFail entry)

def putNE (st : ExecSt) (ne : NodeExecution) : ExecSt :=
  { st with ex := { st.ex with nodeExecutions := aSet st.ex.nodeExecutions ne.nodeId ne } }

/-- The `catch` block of `executeNode`: mark the node's record as failed
(keeping any outputs already recorded), log, and re-raise — unless the log
callback itself throws, in which case that message replaces the original. -/
def nodeCatch (cfg : EngCfg) (nodeId : String) (st : ExecSt) (msg : String) : ExecSt × Option String :=
  let ne := match aGet st.ex.nodeExecutions nodeId with
    | some ne0 => { ne0 with status := .error, error := some msg }
    | none => ⟨nodeId, .error, none, some msg⟩
  let st := putNE st ne
  match logE cfg st .error ("🚨 Node failed: " ++ msg) (some nodeId) with
  | (st, some m) => (st, some m)
  | (st, none) => (st, some msg)

/-- One `setNodeOutput(key, value)` call. -/
def storeSetKey (s : Store) (nid k : String) (v : Value) : Store :=
  aSet s nid (fSet ((aGet s nid).getD .nil) k v)

/-- Replay of the `setNodeOutput` calls a block made, in order. -/
def applySets (nid : String) : Store → List (String × Value) → Store
  | s, [] => s
  | s, (k, v) :: tl => applySets nid (storeSetKey s nid k v) tl

/-- The run context `executeNode` builds for a node: the node's
configuration with templates resolved against the current store, plus the
raw environment, store snapshot, `prevId` and the single-node flag. -/
def nodeRunCtx (w : Workflow) (node : WorkflowNode) (env : Env) (aliasMap : AliasMap) (singleNodeId : Option String) (store : Store) : RunCtx :=
  let prevId := computePrevId w node.id
  ⟨w.id, node.id, resolveTemplatesDeep ⟨env, prevId, aliasMap, store⟩ (.vObj node.data), env, store, prevId, singleNodeId.isSome⟩

/-- The tail of `executeNode` from the success of the block's `run` on:
record and mirror the merged outputs, log completion, fire the node
callback (source lines 456-494). -/
def executeNodeOk (cfg : EngCfg) (node : WorkflowNode) (st : ExecSt) (sets : List (String × Value)) (result : Value) : ExecSt × Option String :=
  let st := { st with store := applySets node.id st.store sets }
  let returnOutputs : ValueFields := match result with
    | .vObj fs => fs
    | r => .cons "value" r .nil
  let merged := fMerge ((aGet st.store node.id).getD .nil) returnOutputs
  let ne1 : NodeExecution := ⟨node.id, .success, some merged, none⟩
  let st := putNE st ne1
  let st := match result with
    | .vObj _ => { st with store := aSet st.store node.id merged }
    | _ => st
  match (if node.type ≠ "starter" then logE cfg st .info ("✅ " ++ node.type ++ " completed") (some node.id) else (st, none)) with
  | (st, some m) => nodeCatch cfg node.id st m
  | (st, none) =>
    match cfg.onNodeUpdateFail node.id ne1 with
    | some m => (st, some m)
    | none => (st, none)

/-- The body of `executeNode` from the block lookup on: build the run
context, invoke the block, and dispatch on its outcome (source lines
352-494). -/
def executeNodeRun (cfg : EngCfg) (w : Workflow) (node : WorkflowNode) (env : Env) (aliasMap : AliasMap) (singleNodeId : Option String) (run : RunCtx → BlockResult) (st : ExecSt) : ExecSt × Option String :=
  let ctx := nodeRunCtx w node env aliasMap singleNodeId st.store
  let st := { st with ctxs := st.ctxs ++ [ctx] }
  match run ctx with
  | .err sets msg =>
    nodeCatch cfg node.id { st with store := applySets node.id st.store sets } msg
  | .ok sets result => executeNodeOk cfg node st sets result

/-- `executeNode`.  Returns the mutated state and, when the JS original
would throw, the thrown message. -/
def executeNodeE (cfg : EngCfg) (w : Workflow) (node : WorkflowNode) (env : Env) (aliasMap : AliasMap) (singleNodeId : Option String) (st : ExecSt) : ExecSt × Option String :=
  let ne0 : NodeExecution := ⟨node.id, .running, none, none⟩
  let st := putNE st ne0
  match cfg.onNodeUpdateFail node.id ne0 with
  | some m => (st, some m)
  | none =>
    match (if node.type ≠ "starter" then logE cfg st .info ("⚡ " ++ node.type ++ ": " ++ node.id) (some node.id) else (st, none)) with
    | (st, some m) => nodeCatch cfg node.id st m
    | (st, none) =>
      match cfg.registry node.type with
      | none => nodeCatch cfg node.id st ("Block type " ++ node.type ++ " not found or not executable")
      | some run => executeNodeRun cfg w node env aliasMap singleNodeId run st

/-! ## The traversal loop -/

structure EngSt where
  core : ExecSt
  queue : List String
  visitedOrder : List String
  iter : Nat
  observedAbort : Bool

def setStatus (st : EngSt) (s : ExecStatus) : EngSt :=
  { st with core := { st.core with ex := { st.core.ex with status := s } } }

/-- Whether `this.abortController.signal.aborted` reads true at the k-th
dequeue check (the signal, once set by `stop()`, stays set). -/
def abortedAt (cfg : EngCfg) (k : Nat) : Bool :=
  match cfg.abortFrom with
  | some j => j ≤ k
  | none => false

inductive LoopExit where
  | drained | cancelled | thrown (msg : String) | fuelOut
deriving DecidableEq

/-- The `while (queue.length > 0)` loop of `executeWorkflow`, fuel-indexed.
`observedAbort` is a ghost flag set exactly when the abort check fires. -/
def runLoop (cfg : EngCfg) (w : Workflow) (env : Env) (aliasMap : AliasMap) (singleNodeId : Option String) : Nat → EngSt → EngSt × LoopExit
  | 0, st => (st, .fuelOut)
  | fuel + 1, st =>
    match st.queue with
    | [] => (st, .drained)
    | nodeId :: rest =>
      if abortedAt cfg st.iter then
        (setStatus { st with iter := st.iter + 1, observedAbort := true } .cancelled, .cancelled)
      else
        let st := { st with iter := st.iter + 1, queue := rest }
        if st.visitedOrder.contains nodeId then
          runLoop cfg w env aliasMap singleNodeId fuel st
        else
          let st := { st with visitedOrder := st.visitedOrder ++ [nodeId] }
          match w.nodes.find? (fun n => n.id == nodeId) with
          | none => runLoop cfg w env aliasMap singleNodeId fuel st
          | some node =>
            match executeNodeE cfg w node env aliasMap singleNodeId st.core with
            | (core, some msg) =>
              let st := setStatus { st with core := core } .error
              (match logE cfg st.core .error ("❌ Node \"" ++ node.id ++ "\" failed: " ++ msg) none with
               | (core2, some m2) => ({ st with core := core2 }, .thrown m2)
               | (core2, none) => ({ st with core := core2 }, .thrown msg))
            | (core, none) =>
              let st := { st with core := core }
              let st :=
                if singleNodeId.isSome then st
                else
                  let nextIds := (getConnectedNodes w nodeId).map (fun n => n.id)
                  { st with queue := st.queue ++ nextIds.filter (fun i => !(st.visitedOrder.contains i)) }
              runLoop cfg w env aliasMap singleNodeId fuel st

/-! ## `executeWorkflow` -/

structure EngOptions where
  onlyNodeId : Option String
  existingExecution : Option WorkflowExecution

/-- The observable outcome of one run: the returned snapshot plus the
final output store and the ghost traces. -/
structure RunResult where
  ex : WorkflowExecution
  store : Store
  ctxs : List RunCtx
  visitedOrder : List String
  observedAbort : Bool

def mkResult (est : EngSt) : RunResult :=
  ⟨est.core.ex, est.core.store, est.core.ctxs, est.visitedOrder, est.observedAbort⟩

/-- The outer `catch`: mark the run failed and log; if that log callback
throws, the new message escapes `executeWorkflow` itself. -/
def outerCatchE (cfg : EngCfg) (est : EngSt) (msg : String) : Except String RunResult :=
  let est := setStatus est .error
  match logE cfg est.core .error ("💥 Workflow failed: " ++ msg) none with
  | (_, some m2) => .error m2
  | (core, none) => .ok (mkResult { est with core := core })

/-- `options?.onlyNodeId?.trim()` with all later truthiness checks folded
in (`""` behaves exactly like `undefined`). -/
def normSingle : Option String → Option String
  | some s => if jsTrim s = "" then none else some (jsTrim s)
  | none => none

/-- The restore loop of single-node mode: copy every recorded
`NodeExecution.outputs` into the output store, logging each. -/
def restoreGo (cfg : EngCfg) : ExecSt → List (String × NodeExecution) → ExecSt × Option String
  | st, [] => (st, none)
  | st, (nid, ne) :: tl =>
    match ne.outputs with
    | none => restoreGo cfg st tl
    | some o =>
      let st := { st with store := aSet st.store nid o }
      match logE cfg st .info ("📋 Restored outputs from previous execution: " ++ nid) none with
      | (st, some m) => (st, some m)
      | (st, none) => restoreGo cfg st tl

def dedupIds (w : Workflow) : List String := (w.nodes.map (fun n => n.id)).dedup

/-- Enough fuel to drain the loop: every iteration dequeues one id, and at
most `|nodes|` ids are enqueued per first visit of a node. -/
def fuelFor (w : Workflow) : Nat := (dedupIds w).length * (w.nodes.length + 1) + 2

/-- `executeWorkflow(workflow, env, options?)`.  `.error m` is the case in
which the JS original rejects (only a throwing progress callback can cause
this); `.ok` carries the returned snapshot. -/
def executeWorkflowE (cfg : EngCfg) (w : Workflow) (env : Env) (options : Option EngOptions) : Except String RunResult :=
  let ex0 : WorkflowExecution := match options.bind (fun o => o.existingExecution) with
    | some e => { e with status := .running }
    | none => ⟨"exec", w.id, .running, [], []⟩
  let st0 : ExecSt := ⟨ex0, [], []⟩
  match logE cfg st0 .info ("🚀 Starting workflow: " ++ w.name) none with
  | (_, some m) => .error m
  | (st1, none) =>
    if w.nodes.isEmpty then outerCatchE cfg ⟨st1, [], [], 0, false⟩ "Workflow has no nodes"
    else
      match w.nodes.find? (fun n => n.id == w.starterId) with
      | none => outerCatchE cfg ⟨st1, [], [], 0, false⟩ "Start node not found"
      | some _ =>
        let aliasMap := buildAliasMap w.nodes
        let singleNodeId := normSingle (options.bind (fun o => o.onlyNodeId))
        match (match singleNodeId with
               | some _ => restoreGo cfg st1 st1.ex.nodeExecutions
               | none => (st1, none)) with
        | (st2, some m) => outerCatchE cfg ⟨st2, [], [], 0, false⟩ m
        | (st2, none) =>
          match (match singleNodeId with
                 | some nid => w.nodes.find? (fun n => n.id == nid)
                 | none => w.nodes.find? (fun n => n.id == w.starterId) : Option WorkflowNode) with
          | none =>
            outerCatchE cfg ⟨st2, [], [], 0, false⟩
              (match singleNodeId with
               | some _ => "Selected node not found"
               | none => "Start node not found")
          | some startNode =>
            match runLoop cfg w env aliasMap singleNodeId (fuelFor w) ⟨st2, [startNode.id], [], 0, false⟩ with
            | (est, .thrown m) => outerCatchE cfg est m
            | (est, _) =>
              if est.core.ex.status ≠ .cancelled then
                let est := setStatus est .success
                match logE cfg est.core .info "✅ Workflow completed" none with
                | (core, some m) => outerCatchE cfg { est with core := core } m
                | (core, none) => .ok (mkResult { est with core := core })
              else .ok (mkResult est)

/-- Total wrapper: the returned run, with a sentinel for the (subscriber
throw) case in which `executeWorkflow` rejects instead of returning. -/
def runResultD (cfg : EngCfg) (w : Workflow) (env : Env) (options : Option EngOptions) : RunResult :=
  match executeWorkflowE cfg w env options with
  | .ok r => r
  | .error _ => ⟨⟨"exec", w.id, .running, [], []⟩, [], [], [], false⟩

/-! ## Basic lemmas -/

theorem aGet_aSet_self {α : Type} (m : List (String × α)) (k : String) (v : α) :
    aGet (aSet m k v) k = some v := by
  induction m with
  | nil => simp [aGet, aSet]
  | cons p tl ih =>
    obtain ⟨k', v'⟩ := p
    by_cases h : k' = k
    · simp [aGet, aSet, h]
    · simp [aGet, aSet, h, ih]

theorem aGet_aSet_ne {α : Type} (m : List (String × α)) (k k' : String) (v : α) (h : k ≠ k') :
    aGet (aSet m k v) k' = aGet m k' := by
  induction m with
  | nil => simp [aGet, aSet, h]
  | cons p tl ih =>
    obtain ⟨k0, v0⟩ := p
    by_cases h0 : k0 = k
    · simp [aGet, aSet, h0, h]
    · simp [aGet, aSet, h0, ih]

theorem stringMkData (s : String) : String.mk s.data = s := rfl

theorem rtCharsF_nilChars (f : String → String) (fuel : Nat) : rtCharsF f fuel [] = [] := by
  cases fuel <;> simp [rtCharsF]

theorem takeWhile_append_all {p : Char → Bool} {l₁ l₂ : List Char} (h : ∀ c ∈ l₁, p c) :
    (l₁ ++ l₂).takeWhile p = l₁ ++ l₂.takeWhile p := by
  induction l₁ with
  | nil => simp
  | cons c tl ih =>
    have hc : p c := h c (by simp)
    simp [List.takeWhile, hc]
    exact ih (fun x hx => h x (by simp [hx]))

/-- A template string that is exactly one well-formed placeholder resolves
to the callback applied to its body. -/
theorem applyTemplates_single (f : String → String) (body : String)
    (hne : body ≠ "") (hnb : ∀ c ∈ body.data, c ≠ '}') :
    applyTemplates f ("\x7b\x7b" ++ body ++ "\x7d\x7d") = f body := by
  have hdata : ("\x7b\x7b" ++ body ++ "\x7d\x7d").data = '{' :: '{' :: (body.data ++ ['}', '}']) := by
    simp [String.data_append]
  have htw : (body.data ++ ['}', '}']).takeWhile (fun c => c ≠ '}') = body.data := by
    rw [takeWhile_append_all (by intro c hc; simpa using hnb c hc)]
    simp [List.takeWhile]
  have hbody_ne : body.data ≠ [] := by
    intro hcontra
    exact hne (by cases body with | mk l => simp at hcontra; simp [hcontra])
  unfold applyTemplates
  rw [hdata]
  simp only [List.length_cons]
  rw [rtCharsF]
  simp only [htw, List.drop_left]
  have : (body.data.isEmpty) = false := by
    cases hb : body.data with
    | nil => exact absurd hb hbody_ne
    | cons c tl => simp [List.isEmpty]
  simp only [this]
  rw [rtCharsF_nilChars]
  simp [stringMkData]

theorem splitDotsAux_ne_nil (cs : List Char) (acc : List Char) : splitDotsAux cs acc ≠ [] := by
  induction cs generalizing acc with
  | nil => simp [splitDotsAux]
  | cons c tl ih =>
    by_cases h : c = '.'
    · simp [splitDotsAux, h]
    · simp [splitDotsAux, h, ih]

theorem joinDots_cons_ne (s : String) (l : List String) (h : l ≠ []) :
    joinDots (s :: l) = s ++ "." ++ joinDots l := by
  cases l with
  | nil => exact absurd rfl h
  | cons a tl => rfl

theorem stringMk_append (a b : List Char) : String.mk a ++ String.mk b = String.mk (a ++ b) := rfl

theorem joinDots_splitDotsAux (cs : List Char) (acc : List Char) :
    joinDots (splitDotsAux cs acc) = String.mk (acc.reverse ++ cs) := by
  induction cs generalizing acc with
  | nil => simp [splitDotsAux, joinDots]
  | cons c tl ih =>
    rw [splitDotsAux]
    by_cases h : c = '.'
    · rw [if_pos h]
      rw [joinDots_cons_ne _ _ (splitDotsAux_ne_nil tl [])]
      rw [ih []]
      subst h
      show String.mk acc.reverse ++ String.mk ['.'] ++ String.mk ([].reverse ++ tl)
          = String.mk (acc.reverse ++ '.' :: tl)
      rw [stringMk_append, stringMk_append]
      simp
    · rw [if_neg h, ih (c :: acc)]
      simp

theorem joinDots_splitDots (s : String) : joinDots (splitDots s) = s := by
  rw [splitDots, joinDots_splitDotsAux]
  simp [stringMkData]

theorem splitDotsAux_append_dot (pre rest : List Char) (acc : List Char)
    (h : ∀ c ∈ pre, c ≠ '.') :
    splitDotsAux (pre ++ '.' :: rest) acc = String.mk (acc.reverse ++ pre) :: splitDotsAux rest [] := by
  induction pre generalizing acc with
  | nil => simp [splitDotsAux]
  | cons c tl ih =>
    have hc : c ≠ '.' := h c (by simp)
    rw [List.cons_append, splitDotsAux, if_neg hc, ih _ (fun x hx => h x (by simp [hx]))]
    simp

theorem resolveExpr_prev_split (rc : ResCtx) (path : String)
    (htrim : jsTrim ("prev." ++ path) = "prev." ++ path) :
    resolveExpr rc ("prev." ++ path) = resolveRoot rc "prev" path := by
  have hdata : ("prev." ++ path).data = ['p', 'r', 'e', 'v'] ++ '.' :: path.data := by
    rw [String.data_append]
    rfl
  have hsplit : splitDots ("prev." ++ path) = "prev" :: splitDots path := by
    rw [splitDots, hdata, splitDotsAux_append_dot _ _ _ (by decide)]
    rfl
  unfold resolveExpr
  rw [htrim]
  show resolveRoot rc ((splitDots ("prev." ++ path)).headD "")
      (joinDots (splitDots ("prev." ++ path)).tail) = _
  rw [hsplit]
  simp [joinDots_splitDots]

theorem resolveRoot_prev (rc : ResCtx) (path : String) :
    resolveRoot rc "prev" path =
      (match prevTruthy rc.prevId with
       | none => ""
       | some p =>
         if path = "" then jsDisplay ((aGet rc.store p).map Value.vObj)
         else jsDisplay (getByPath (.vObj ((aGet rc.store p).getD .nil)) path)) := rfl

theorem resolveRoot_other (rc : ResCtx) (root path : String)
    (h1 : root ≠ "") (h2 : root ≠ "env") (h3 : root ≠ "prev") :
    resolveRoot rc root path =
      (match (match aGet rc.aliasMap root with
              | none => some root
              | some none => none
              | some (some tid) => some tid : Option String) with
       | none => ""
       | some tid =>
         match aGet rc.store tid with
         | none => ""
         | some outputs =>
           if path = "" then jsDisplay (some (.vObj outputs))
           else jsDisplay (getByPath (.vObj outputs) path)) := by
  unfold resolveRoot
  rw [if_neg h1, if_neg h2, if_neg h3]

/-! ## C3 — the `prev` placeholder -/

/-- Modelled from the spec: «if exactly one edge targets the current node,
`rest` (or the whole output object if `rest` empty) is looked up in that
single predecessor's recorded outputs; if the node has zero or more than
one incoming edge, resolves to empty».  Used as the comparator the claim
is checked against. -/
def specPrevResolve (w : Workflow) (nodeId : String) (store : Store) (path : String) : String :=
  match (w.edges.filter (fun e => e.target == nodeId)).map (fun e => e.source) with
  | [src] =>
    if path = "" then jsDisplay ((aGet store src).map Value.vObj)
    else jsDisplay (getByPath (.vObj ((aGet store src).getD .nil)) path)
  | _ => ""

/-- C3 (amended): a `prev` placeholder resolves against the single
predecessor's recorded outputs exactly when the node has exactly one
incoming edge *whose source id is non-empty* (a single edge with the empty
source id is treated like no predecessor); with zero or several incoming
edges it resolves to the empty string. -/
theorem C3_prev_single_predecessor (w : Workflow) (nodeId : String) (env : Env)
    (am : AliasMap) (store : Store) (path : String)
    (htrim : jsTrim ("prev." ++ path) = "prev." ++ path) :
    (∀ e : WorkflowEdge, w.edges.filter (fun e' => e'.target == nodeId) = [e] → e.source ≠ "" →
       resolveExpr ⟨env, computePrevId w nodeId, am, store⟩ ("prev." ++ path) =
         specPrevResolve w nodeId store path) ∧
    ((w.edges.filter (fun e' => e'.target == nodeId)).length ≠ 1 →
       resolveExpr ⟨env, computePrevId w nodeId, am, store⟩ ("prev." ++ path) = "") := by
  rw [resolveExpr_prev_split _ _ htrim, resolveRoot_prev]
  constructor
  · intro e hfilter hsrc
    rw [computePrevId, hfilter]
    simp only [List.map]
    rw [specPrevResolve, hfilter]
    simp [prevTruthy, hsrc]
  · intro hlen
    have hnone : computePrevId w nodeId = none := by
      rw [computePrevId]
      rcases hf : w.edges.filter (fun e' => e'.target == nodeId) with _ | ⟨e, _ | ⟨e', tl⟩⟩
      · rw [hf]; rfl
      · exact absurd (by rw [hf]; rfl) hlen
      · rw [hf]; rfl
    rw [hnone]
    rfl

def c3w : Workflow := ⟨"w", "W", "", [], [⟨"e1", "", "B"⟩]⟩

def c3store : Store := [("", .cons "count" (.vNum 3) .nil)]

/-- C3 counterexample: node `B` has exactly one incoming edge, its source
(the node with the empty-string id) has recorded outputs `count = 3`, yet
`prev.count` resolves to `""` while the spec's rule yields `"3"` — because
the engine guards `prevId` with JS truthiness and `""` is falsy. -/
theorem C3_counterexample :
    (c3w.edges.filter (fun e => e.target == "B")).length = 1 ∧
    resolveString ⟨[], computePrevId c3w "B", [], c3store⟩ "\x7b\x7bprev.count\x7d\x7d" = "" ∧
    specPrevResolve c3w "B" c3store "count" = "3" := ⟨rfl, rfl, rfl⟩

/-- C3 witness: with a single incoming edge from `A` (non-empty id) whose
recorded outputs are `count = 3`, the template resolves to `"3"`. -/
theorem C3_prev_single_predecessor_witness :
    jsTrim ("prev." ++ "count") = "prev." ++ "count" ∧
    resolveExpr ⟨[], computePrevId ⟨"w", "W", "s", [], [⟨"e1", "A", "B"⟩]⟩ "B", [],
        [("A", .cons "count" (.vNum 3) .nil)]⟩ ("prev." ++ "count") = "3" := by
  refine ⟨by decide, ?_⟩
  have h := (C3_prev_single_predecessor ⟨"w", "W", "s", [], [⟨"e1", "A", "B"⟩]⟩ "B" []
    [] [("A", .cons "count" (.vNum 3) .nil)] "count" (by decide)).1
    ⟨"e1", "A", "B"⟩ (by rfl) (by decide)
  rw [h]
  rfl

/-! ## C4 — alias-map ambiguity -/

theorem buildAliasMap_char (name : String) (hne : name ≠ "") :
    ∀ (ns : List WorkflowNode) (m : AliasMap),
      aGet (List.foldl buildAliasStep m ns) name =
        match aGet m name, ns.filter (fun n => aliasName n == name) with
        | none, [] => none
        | none, [n] => some (some n.id)
        | none, _ :: _ :: _ => some none
        | some x, [] => some x
        | some _, _ :: _ => some none := by
  intro ns
  induction ns with
  | nil =>
    intro m
    cases h : aGet m name <;> simp [h]
  | cons n tl ih =>
    intro m
    rw [List.foldl_cons]
    by_cases ha : aliasName n = name
    · have hstep : buildAliasStep m n =
          (match aGet m name with
           | none => aSet m name (some n.id)
           | some _ => aSet m name none) := by
        unfold buildAliasStep
        rw [ha, if_neg hne]
      rw [ih (buildAliasStep m n), hstep]
      cases hm : aGet m name with
      | none =>
        rw [aGet_aSet_self]
        rw [List.filter_cons, if_pos (by simp [ha])]
        cases htl : tl.filter (fun n => aliasName n == name) <;> simp
      | some x =>
        rw [aGet_aSet_self]
        rw [List.filter_cons, if_pos (by simp [ha])]
        cases htl : tl.filter (fun n => aliasName n == name) <;> simp
    · have hpres : aGet (buildAliasStep m n) name = aGet m name := by
        unfold buildAliasStep
        by_cases hz : aliasName n = ""
        · rw [if_pos hz]
        · rw [if_neg hz]
          cases aGet m (aliasName n) <;> exact aGet_aSet_ne _ _ _ _ ha
      rw [ih (buildAliasStep m n), hpres, List.filter_cons, if_neg (by simp [ha])]

/-- C4 (confirmed): the alias map sends a (trimmed, non-empty) name borne
by exactly one node to that node's id, and a name shared by two or more
nodes to the ambiguity marker, with no error raised; consequently, when
two nodes share the name `x`, the template `(x.field)` placeholder
resolves to the empty string against any store — it never picks either
node's outputs. -/
theorem C4_alias_first_then_marker (nodes : List WorkflowNode) :
    (∀ name, name ≠ "" →
       aGet (buildAliasMap nodes) name =
         match nodes.filter (fun n => aliasName n == name) with
         | [] => none
         | [n] => some (some n.id)
         | _ :: _ :: _ => some none) ∧
    (∀ (env : Env) (pid : Option String) (store : Store),
       2 ≤ (nodes.filter (fun n => aliasName n == "x")).length →
       resolveString ⟨env, pid, buildAliasMap nodes, store⟩ "\x7b\x7bx.field\x7d\x7d" = "") := by
  have hpart1 : ∀ name, name ≠ "" →
      aGet (buildAliasMap nodes) name =
        match nodes.filter (fun n => aliasName n == name) with
        | [] => none
        | [n] => some (some n.id)
        | _ :: _ :: _ => some none := by
    intro name hne
    rw [buildAliasMap, buildAliasMap_char name hne nodes []]
    cases h : nodes.filter (fun n => aliasName n == name) with
    | nil => rfl
    | cons a tl => cases tl <;> rfl
  refine ⟨hpart1, ?_⟩
  intro env pid store hlen
  have hamb : aGet (buildAliasMap nodes) "x" = some none := by
    rw [hpart1 "x" (by decide)]
    rcases h : nodes.filter (fun n => aliasName n == "x") with _ | ⟨a, _ | ⟨b, tl⟩⟩
    · rw [h] at hlen; simp at hlen
    · rw [h] at hlen; simp at hlen
    · rfl
  rw [resolveString, show ("\x7b\x7bx.field\x7d\x7d" : String) = "\x7b\x7b" ++ "x.field" ++ "\x7d\x7d" from rfl,
    applyTemplates_single _ _ (by decide) (by decide)]
  have hsplit : resolveExpr ⟨env, pid, buildAliasMap nodes, store⟩ "x.field" =
      resolveRoot ⟨env, pid, buildAliasMap nodes, store⟩ "x" "field" := rfl
  rw [hsplit, resolveRoot_other _ _ _ (by decide) (by decide) (by decide)]
  rw [hamb]

/-- C4 witness: two nodes of type `x`, no alias keys. -/
theorem C4_alias_first_then_marker_witness :
    ("x" ≠ "" ∧
      aGet (buildAliasMap [⟨"n1", "x", .nil⟩, ⟨"n2", "x", .nil⟩]) "x" = some none) ∧
    (2 ≤ (([⟨"n1", "x", .nil⟩, ⟨"n2", "x", .nil⟩] : List WorkflowNode).filter
        (fun n => aliasName n == "x")).length ∧
      resolveString ⟨[], none, buildAliasMap [⟨"n1", "x", .nil⟩, ⟨"n2", "x", .nil⟩],
        [("n1", .cons "field" (.vNum 1) .nil), ("n2", .cons "field" (.vNum 2) .nil)]⟩
        "\x7b\x7bx.field\x7d\x7d" = "") := by
  constructor
  · refine ⟨by decide, ?_⟩
    rw [(C4_alias_first_then_marker [⟨"n1", "x", .nil⟩, ⟨"n2", "x", .nil⟩]).1 "x" (by decide)]
    rfl
  · refine ⟨by rfl, ?_⟩
    exact (C4_alias_first_then_marker [⟨"n1", "x", .nil⟩, ⟨"n2", "x", .nil⟩]).2 []
      none [("n1", .cons "field" (.vNum 1) .nil), ("n2", .cons "field" (.vNum 2) .nil)] (by rfl)

/-! ## C5 — path traversal through non-containers -/

theorem pathGo_none (l : List String) : pathGo none l = none := by
  cases l <;> rfl

theorem pathGo_append (cur : Option Value) (ps qs : List String) :
    pathGo cur (ps ++ qs) = pathGo (pathGo cur ps) qs := by
  induction ps generalizing cur with
  | nil => cases cur <;> rfl
  | cons p ps ih =>
    cases cur with
    | none => simp [pathGo_none]
    | some v =>
      by_cases hf : jsFalsy v
      · simp [List.cons_append, pathGo, hf, pathGo_none]
      · simp [List.cons_append, pathGo, hf, ih]

/-- C5 (amended): traversal stops with an undefined result — and the
placeholder with the empty string — the moment it meets an intermediate
`null`, boolean, or number; an intermediate *string*, however, exposes its
numeric indices and `length` to property access, so a path through a
string may resolve non-empty (see the counterexample). -/
theorem C5_traversal_stops_on_primitives :
    (∀ (obj : Value) (ps qs : List String) (v : Value),
       pathGo (some obj) ps = some v →
       (v = .vNull ∨ (∃ b, v = .vBool b) ∨ (∃ n, v = .vNum n)) →
       qs ≠ [] →
       pathGo (some obj) (ps ++ qs) = none) ∧
    (∀ (env : Env) (pid : Option String) (am : AliasMap) (store : Store),
       aGet am "a" = none →
       aGet store "a" = some (.cons "n" (.vNum 5) .nil) →
       resolveString ⟨env, pid, am, store⟩ "\x7b\x7ba.n.x.y\x7d\x7d" = "") := by
  constructor
  · intro obj ps qs v hps hprim hqs
    rw [pathGo_append, hps]
    cases qs with
    | nil => exact absurd rfl hqs
    | cons q qtl =>
      have hget : jsGetProp v q = none := by
        rcases hprim with h | ⟨b, h⟩ | ⟨n, h⟩ <;> subst h <;> rfl
      by_cases hf : jsFalsy v
      · simp [pathGo, hf]
      · simp [pathGo, hf, hget, pathGo_none]
  · intro env pid am store ham hstore
    rw [resolveString, show ("\x7b\x7ba.n.x.y\x7d\x7d" : String) = "\x7b\x7b" ++ "a.n.x.y" ++ "\x7d\x7d" from rfl,
      applyTemplates_single _ _ (by decide) (by decide)]
    have hsplit : resolveExpr ⟨env, pid, am, store⟩ "a.n.x.y" =
        resolveRoot ⟨env, pid, am, store⟩ "a" "n.x.y" := rfl
    rw [hsplit, resolveRoot_other _ _ _ (by decide) (by decide) (by decide)]
    rw [ham]
    show (match aGet store "a" with
          | none => ""
          | some outputs =>
            if ("n.x.y" : String) = "" then jsDisplay (some (.vObj outputs))
            else jsDisplay (getByPath (.vObj outputs) "n.x.y")) = ""
    rw [hstore]
    rfl

/-- C5 counterexample: the recorded output `s = "ab"` is not a traversable
container, yet the placeholder `(a.s.0)` resolves to `"a"` (JS string
index access) and `(a.s.length)` to `"2"`, not to the empty string the
claim requires. -/
theorem C5_counterexample :
    resolveString ⟨[], none, [], [("a", .cons "s" (.vStr "ab") .nil)]⟩
        "\x7b\x7ba.s.0\x7d\x7d" = "a" ∧
    resolveString ⟨[], none, [], [("a", .cons "s" (.vStr "ab") .nil)]⟩
        "\x7b\x7ba.s.length\x7d\x7d" = "2" := ⟨rfl, rfl⟩

/-- C5 witness: a two-step path over an intermediate number resolves to
undefined, hence the placeholder to the empty string. -/
theorem C5_traversal_stops_on_primitives_witness :
    (pathGo (some (.vObj (.cons "n" (.vNum 5) .nil))) ["n"] = some (.vNum 5) ∧
      pathGo (some (.vObj (.cons "n" (.vNum 5) .nil))) (["n"] ++ ["x"]) = none) ∧
    resolveString ⟨[], none, [("z", some "zz")], [("a", .cons "n" (.vNum 5) .nil)]⟩
        "\x7b\x7ba.n.x.y\x7d\x7d" = "" := by
  refine ⟨⟨rfl, ?_⟩, ?_⟩
  · exact C5_traversal_stops_on_primitives.1 _ ["n"] ["x"] (.vNum 5) rfl
      (Or.inr (Or.inr ⟨5, rfl⟩)) (by simp)
  · exact C5_traversal_stops_on_primitives.2 [] none [("z", some "zz")]
      [("a", .cons "n" (.vNum 5) .nil)] rfl rfl

/-! ## C7 — output merging and mirroring -/

/-- Both progress callbacks never throw. -/
def subscribersOk (cfg : EngCfg) : Prop :=
  (∀ e, cfg.onLogFail e = none) ∧ (∀ nid ne, cfg.onNodeUpdateFail nid ne = none)

/-- C7 (amended): after a successful block run, the node's recorded
outputs are the in-order merge of (a) the `setNodeOutput` writes and
(b) the returned result object, a bare non-object return being wrapped as
`value`; that merged object is mirrored into the shared Output Store
*only when the result is a non-array object* — for a bare value or an
array, the store keeps only the `setNodeOutput` writes. -/
theorem C7_outputs_merge (cfg : EngCfg) (w : Workflow) (node : WorkflowNode)
    (env : Env) (am : AliasMap) (single : Option String) (st : ExecSt)
    (run : RunCtx → BlockResult) (sets : List (String × Value)) (result : Value)
    (hsub : subscribersOk cfg)
    (hreg : cfg.registry node.type = some run)
    (hrun : run (nodeRunCtx w node env am single st.store) = .ok sets result) :
    (executeNodeE cfg w node env am single st).2 = none ∧
    aGet (executeNodeE cfg w node env am single st).1.ex.nodeExecutions node.id =
      some ⟨node.id, .success,
        some (fMerge ((aGet (applySets node.id st.store sets) node.id).getD .nil)
          (match result with
           | .vObj fs => fs
           | r => .cons "value" r .nil)), none⟩ ∧
    (executeNodeE cfg w node env am single st).1.store =
      (match result with
       | .vObj fs => aSet (applySets node.id st.store sets) node.id
           (fMerge ((aGet (applySets node.id st.store sets) node.id).getD .nil) fs)
       | _ => applySets node.id st.store sets) := by
  obtain ⟨hlog, hnu⟩ := hsub
  unfold executeNodeE executeNodeRun executeNodeOk
  simp only [hnu, putNE, logE, hlog, hreg, hrun]
  by_cases hstart : node.type = "starter" <;>
    cases result <;>
    simp [hstart, hnu, hlog, logE, hrun, aGet_aSet_self]

def c7w : Workflow := ⟨"w", "W", "s", [⟨"s", "starter", .nil⟩, ⟨"A", "bare", .nil⟩], [⟨"e1", "s", "A"⟩]⟩

def c7cfg : EngCfg :=
  ⟨fun t => if t = "bare" then some (fun _ => .ok [] (.vNum 7)) else some (fun _ => .ok [] (.vObj .nil)),
   fun _ => none, fun _ _ => none, none⟩

/-- C7 counterexample: node `A`'s block returns the bare value `7` with no
`setNodeOutput` writes.  Its recorded outputs are the wrapped
`(value = 7)`, but nothing is mirrored into the Output Store — the store
has no entry for `A` at all after the run, so later template and
`getNodeOutput` lookups see nothing, contradicting the claim that the
merged object is always mirrored. -/
theorem C7_counterexample :
    aGet (runResultD c7cfg c7w [] none).ex.nodeExecutions "A" =
      some ⟨"A", .success, some (.cons "value" (.vNum 7) .nil), none⟩ ∧
    aGet (runResultD c7cfg c7w [] none).store "A" = none := ⟨rfl, rfl⟩

def c7wB : Workflow := ⟨"w", "W", "A", [⟨"A", "blk", .nil⟩], []⟩

def c7cfgB : EngCfg :=
  ⟨fun _ => some (fun _ => .ok [("s", .vNum 1)] (.vNum 7)), fun _ => none, fun _ _ => none, none⟩

/-- C7 witness: a block that wrote `s = 1` via `setNodeOutput` and returned
the bare value `7` gets recorded outputs `(s = 1, value = 7)`. -/
theorem C7_outputs_merge_witness :
    subscribersOk c7cfgB ∧
    (executeNodeE c7cfgB c7wB ⟨"A", "blk", .nil⟩ [] [] none ⟨⟨"exec", "w", .running, [], []⟩, [], []⟩).2 = none ∧
    aGet (executeNodeE c7cfgB c7wB ⟨"A", "blk", .nil⟩ [] [] none
        ⟨⟨"exec", "w", .running, [], []⟩, [], []⟩).1.ex.nodeExecutions "A" =
      some ⟨"A", .success, some (.cons "s" (.vNum 1) (.cons "value" (.vNum 7) .nil)), none⟩ := by
  have h := C7_outputs_merge c7cfgB c7wB ⟨"A", "blk", .nil⟩ [] [] none
    ⟨⟨"exec", "w", .running, [], []⟩, [], []⟩ (fun _ => .ok [("s", .vNum 1)] (.vNum 7))
    [("s", .vNum 1)] (.vNum 7) ⟨fun _ => rfl, fun _ _ => rfl⟩ rfl rfl
  refine ⟨⟨fun _ => rfl, fun _ _ => rfl⟩, h.1, ?_⟩
  rw [h.2.1]
  rfl

/-! ## Loop invariants -/

/-- Every `NodeExecution` entry visible in the snapshot has succeeded. -/
def allSuccessG (ex : WorkflowExecution) : Prop :=
  ∀ id ne, aGet ex.nodeExecutions id = some ne → ne.status = NodeStatus.success

/-- Every node with a `NodeExecution` entry was visited this run. -/
def keysInG (ex : WorkflowExecution) (vis : List String) : Prop :=
  ∀ id ne, aGet ex.nodeExecutions id = some ne → id ∈ vis

theorem logE_fst (cfg : EngCfg) (st : ExecSt) (l : LogLevel) (m : String) (nid : Option String) :
    (logE cfg st l m nid).1 = { st with ex := { st.ex with logs := st.ex.logs ++ [⟨nid, m, l⟩] } } := rfl

theorem nodeCatch_char (cfg : EngCfg) (nid : String) (st : ExecSt) (msg : String)
    (ne0 : NodeExecution) (h : aGet st.ex.nodeExecutions nid = some ne0) (hid : ne0.nodeId = nid) :
    (nodeCatch cfg nid st msg).1.ex.status = st.ex.status ∧
    (nodeCatch cfg nid st msg).1.ctxs = st.ctxs ∧
    (nodeCatch cfg nid st msg).1.store = st.store ∧
    (∀ id, id ≠ nid →
      aGet (nodeCatch cfg nid st msg).1.ex.nodeExecutions id = aGet st.ex.nodeExecutions id) ∧
    aGet (nodeCatch cfg nid st msg).1.ex.nodeExecutions nid =
      some { ne0 with status := .error, error := some msg } ∧
    (nodeCatch cfg nid st msg).2.isSome := by
  unfold nodeCatch
  rw [h]
  cases hlf : cfg.onLogFail ⟨some nid, "🚨 Node failed: " ++ msg, .error⟩ <;>
    simp [logE, hlf, putNE, hid, aGet_aSet_self] <;>
    exact fun id hne => aGet_aSet_ne _ _ _ _ (fun hc => hne hc.symm)

theorem executeNodeOk_char (cfg : EngCfg) (node : WorkflowNode) (st : ExecSt)
    (sets : List (String × Value)) (result : Value) :
    (executeNodeOk cfg node st sets result).1.ex.status = st.ex.status ∧
    (∀ id, id ≠ node.id →
      aGet (executeNodeOk cfg node st sets result).1.ex.nodeExecutions id =
        aGet st.ex.nodeExecutions id) ∧
    (∃ ne : NodeExecution,
      aGet (executeNodeOk cfg node st sets result).1.ex.nodeExecutions node.id = some ne ∧
      ((executeNodeOk cfg node st sets result).2 = none → ne.status = .success)) := by
  simp only [executeNodeOk, nodeCatch, logE, putNE, aGet_aSet_self]
  repeat' (first | split_ifs | split)
  all_goals try (rename @Eq (ExecSt × Option String) _ _ => hp1; rw [Prod.mk.injEq] at hp1; obtain ⟨h1a, h2a⟩ := hp1; subst h1a)
  all_goals try (rename @Eq (ExecSt × Option String) _ _ => hp2; rw [Prod.mk.injEq] at hp2; obtain ⟨h1b, h2b⟩ := hp2; subst h1b)
  all_goals try simp only [aGet_aSet_self]
  all_goals refine ⟨?_, fun id hne => ?_, ?_⟩
  all_goals cases result
  all_goals try (simp at h2a)
  all_goals try (simp at h2b)
  all_goals try rfl
  all_goals try simp only []
  all_goals try simp only [aGet_aSet_self]
  all_goals try (repeat' rw [aGet_aSet_ne _ _ _ _ (Ne.symm hne)])
  all_goals try exact ⟨_, rfl, fun hc => absurd hc (Option.some_ne_none _)⟩
  all_goals try exact ⟨_, rfl, fun hc => rfl⟩

theorem executeNodeRun_char (cfg : EngCfg) (w : Workflow) (node : WorkflowNode) (env : Env)
    (aliasMap : AliasMap) (singleNodeId : Option String) (run : RunCtx → BlockResult)
    (st : ExecSt) (ne0 : NodeExecution)
    (hB : aGet st.ex.nodeExecutions node.id = some ne0) (hid : ne0.nodeId = node.id) :
    (executeNodeRun cfg w node env aliasMap singleNodeId run st).1.ex.status = st.ex.status ∧
    (∀ id, id ≠ node.id →
      aGet (executeNodeRun cfg w node env aliasMap singleNodeId run st).1.ex.nodeExecutions id =
        aGet st.ex.nodeExecutions id) ∧
    (∃ ne : NodeExecution,
      aGet (executeNodeRun cfg w node env aliasMap singleNodeId run st).1.ex.nodeExecutions node.id = some ne ∧
      ((executeNodeRun cfg w node env aliasMap singleNodeId run st).2 = none → ne.status = .success)) := by
  simp only [executeNodeRun]
  cases hrun : run (nodeRunCtx w node env aliasMap singleNodeId st.store) with
  | err sets msg =>
    simp only [hrun]
    have h := nodeCatch_char cfg node.id
      { st with ctxs := st.ctxs ++ [nodeRunCtx w node env aliasMap singleNodeId st.store],
                store := applySets node.id st.store sets } msg ne0 hB hid
    refine ⟨h.1, fun id hne => h.2.2.2.1 id hne, ⟨_, h.2.2.2.2.1, fun hc => ?_⟩⟩
    have h6 := h.2.2.2.2.2
    rw [hc] at h6
    exact absurd h6 (by simp)
  | ok sets result =>
    simp only [hrun]
    exact executeNodeOk_char cfg node
      { st with ctxs := st.ctxs ++ [nodeRunCtx w node env aliasMap singleNodeId st.store] } sets result

theorem executeNodeOk_noThrow (cfg : EngCfg) (node : WorkflowNode) (st : ExecSt)
    (sets : List (String × Value)) (result : Value)
    (hlog : ∀ e, cfg.onLogFail e = none)
    (hnu : ∀ nid ne, cfg.onNodeUpdateFail nid ne = none) :
    (executeNodeOk cfg node st sets result).2 = none := by
  simp only [executeNodeOk, logE, putNE]
  by_cases hstart : node.type = "starter" <;> cases result <;> simp [hstart, hlog, hnu]

theorem executeNodeRun_charS (cfg : EngCfg) (w : Workflow) (node : WorkflowNode) (env : Env)
    (aliasMap : AliasMap) (singleNodeId : Option String) (run : RunCtx → BlockResult)
    (st : ExecSt) (ne0 : NodeExecution)
    (hB : aGet st.ex.nodeExecutions node.id = some ne0) (hid : ne0.nodeId = node.id)
    (hlog : ∀ e, cfg.onLogFail e = none)
    (hnu : ∀ nid ne, cfg.onNodeUpdateFail nid ne = none) :
    (executeNodeRun cfg w node env aliasMap singleNodeId run st).1.ex.status = st.ex.status ∧
    (∀ id, id ≠ node.id →
      aGet (executeNodeRun cfg w node env aliasMap singleNodeId run st).1.ex.nodeExecutions id =
        aGet st.ex.nodeExecutions id) ∧
    (∃ ne : NodeExecution,
      aGet (executeNodeRun cfg w node env aliasMap singleNodeId run st).1.ex.nodeExecutions node.id = some ne ∧
      ((executeNodeRun cfg w node env aliasMap singleNodeId run st).2 = none → ne.status = .success) ∧
      (∀ m, (executeNodeRun cfg w node env aliasMap singleNodeId run st).2 = some m → ne.status = .error)) := by
  simp only [executeNodeRun]
  cases hrun : run (nodeRunCtx w node env aliasMap singleNodeId st.store) with
  | err sets msg =>
    simp only [hrun]
    have h := nodeCatch_char cfg node.id
      { st with ctxs := st.ctxs ++ [nodeRunCtx w node env aliasMap singleNodeId st.store],
                store := applySets node.id st.store sets } msg ne0 hB hid
    refine ⟨h.1, fun id hne => h.2.2.2.1 id hne, ⟨_, h.2.2.2.2.1, fun hc => ?_, fun m _ => rfl⟩⟩
    have h6 := h.2.2.2.2.2
    rw [hc] at h6
    exact absurd h6 (by simp)
  | ok sets result =>
    simp only [hrun]
    have h := executeNodeOk_char cfg node
      { st with ctxs := st.ctxs ++ [nodeRunCtx w node env aliasMap singleNodeId st.store] } sets result
    have hn := executeNodeOk_noThrow cfg node
      { st with ctxs := st.ctxs ++ [nodeRunCtx w node env aliasMap singleNodeId st.store] } sets result hlog hnu
    obtain ⟨ne, hget, hsu⟩ := h.2.2
    exact ⟨h.1, h.2.1, ⟨ne, hget, hsu, fun m hm => absurd (hn.symm.trans hm) (by simp)⟩⟩

theorem executeNodeE_charS (cfg : EngCfg) (w : Workflow) (node : WorkflowNode) (env : Env)
    (aliasMap : AliasMap) (singleNodeId : Option String) (st : ExecSt)
    (hlog : ∀ e, cfg.onLogFail e = none)
    (hnu : ∀ nid ne, cfg.onNodeUpdateFail nid ne = none) :
    (executeNodeE cfg w node env aliasMap singleNodeId st).1.ex.status = st.ex.status ∧
    (∀ id, id ≠ node.id →
      aGet (executeNodeE cfg w node env aliasMap singleNodeId st).1.ex.nodeExecutions id =
        aGet st.ex.nodeExecutions id) ∧
    (∃ ne : NodeExecution,
      aGet (executeNodeE cfg w node env aliasMap singleNodeId st).1.ex.nodeExecutions node.id = some ne ∧
      ((executeNodeE cfg w node env aliasMap singleNodeId st).2 = none → ne.status = .success) ∧
      (∀ m, (executeNodeE cfg w node env aliasMap singleNodeId st).2 = some m → ne.status = .error)) := by
  simp only [executeNodeE, putNE, logE, hnu, hlog]
  by_cases hstart : node.type = "starter"
  all_goals simp only [hstart, ne_eq, not_true_eq_false, not_false_eq_true, if_true, if_false, ite_true, ite_false, reduceIte]
  case pos =>
    cases hreg : cfg.registry "starter" with
    | none =>
      simp only [hreg, nodeCatch, logE, putNE, aGet_aSet_self, hlog]
      refine ⟨?_, fun id hne => ?_, ⟨_, rfl, fun hc => absurd hc (Option.some_ne_none _), fun m _ => rfl⟩⟩
      · first
        | rfl
        | trivial
      · repeat' rw [aGet_aSet_ne _ _ _ _ (Ne.symm hne)]
    | some run =>
      simp only [hreg]
      have h := executeNodeRun_charS cfg w node env aliasMap singleNodeId run
        { st with ex := { st.ex with nodeExecutions := aSet st.ex.nodeExecutions node.id ⟨node.id, .running, none, none⟩ } }
        ⟨node.id, .running, none, none⟩ (aGet_aSet_self _ _ _) rfl hlog hnu
      refine ⟨h.1, fun id hne => ?_, h.2.2⟩
      rw [h.2.1 id hne]
      exact aGet_aSet_ne _ _ _ _ (Ne.symm hne)
  case neg =>
    cases hreg : cfg.registry node.type with
    | none =>
      simp only [hreg, nodeCatch, logE, putNE, aGet_aSet_self, hlog]
      refine ⟨?_, fun id hne => ?_, ⟨_, rfl, fun hc => absurd hc (Option.some_ne_none _), fun m _ => rfl⟩⟩
      · first
        | rfl
        | trivial
      · repeat' rw [aGet_aSet_ne _ _ _ _ (Ne.symm hne)]
    | some run =>
      simp only [hreg]
      have h := executeNodeRun_charS cfg w node env aliasMap singleNodeId run
        { st with ex := { st.ex with
            nodeExecutions := aSet st.ex.nodeExecutions node.id ⟨node.id, .running, none, none⟩,
            logs := st.ex.logs ++ [⟨some node.id, "⚡ " ++ node.type ++ ": " ++ node.id, .info⟩] } }
        ⟨node.id, .running, none, none⟩ (aGet_aSet_self _ _ _) rfl hlog hnu
      refine ⟨h.1, fun id hne => ?_, h.2.2⟩
      rw [h.2.1 id hne]
      exact aGet_aSet_ne _ _ _ _ (Ne.symm hne)

/-- Loop invariant: every recorded `NodeExecution` is a success and its
node was visited this run. -/
def invG (est : EngSt) : Prop :=
  ∀ id ne, aGet est.core.ex.nodeExecutions id = some ne →
    ne.status = NodeStatus.success ∧ id ∈ est.visitedOrder

theorem getLast?_app_single {α : Type} (l : List α) (a : α) : (l ++ [a]).getLast? = some a := by
  induction l with
  | nil => rfl
  | cons b tl ih => rw [List.cons_append, List.getLast?_cons]; rw [ih]; rfl

theorem runLoop_charS (cfg : EngCfg) (w : Workflow) (env : Env) (aliasMap : AliasMap)
    (singleNodeId : Option String)
    (hlog : ∀ e, cfg.onLogFail e = none)
    (hnu : ∀ nid ne, cfg.onNodeUpdateFail nid ne = none) :
    ∀ (fuel : Nat) (st : EngSt), invG st →
    ∀ (est : EngSt) (lexit : LoopExit),
      runLoop cfg w env aliasMap singleNodeId fuel st = (est, lexit) →
      (lexit = .drained ∨ lexit = .fuelOut →
        est.core.ex.status = st.core.ex.status ∧ est.observedAbort = st.observedAbort ∧ invG est) ∧
      (lexit = .cancelled →
        est.core.ex.status = .cancelled ∧ est.observedAbort = true ∧ invG est) ∧
      (∀ m, lexit = .thrown m →
        est.core.ex.status = .error ∧ est.observedAbort = st.observedAbort ∧
        ∃ f, est.visitedOrder.getLast? = some f ∧
          (∃ ne, aGet est.core.ex.nodeExecutions f = some ne ∧ ne.status = .error) ∧
          (∀ id ne, id ≠ f → aGet est.core.ex.nodeExecutions id = some ne →
            ne.status = .success ∧ id ∈ est.visitedOrder)) := by
  intro fuel
  induction fuel with
  | zero =>
    intro st hinv est lexit heq
    simp only [runLoop] at heq
    injection heq with h1 h2
    subst h1
    subst h2
    exact ⟨fun _ => ⟨rfl, rfl, hinv⟩, fun hc => absurd hc (by decide), fun m hm => absurd hm (by simp)⟩
  | succ fuel ih =>
    intro st hinv est lexit heq
    simp only [runLoop] at heq
    cases hq : st.queue with
    | nil =>
      rw [hq] at heq
      simp only [] at heq
      injection heq with h1 h2
      subst h1
      subst h2
      exact ⟨fun _ => ⟨rfl, rfl, hinv⟩, fun hc => absurd hc (by decide), fun m hm => absurd hm (by simp)⟩
    | cons nodeId rest =>
      rw [hq] at heq
      simp only [] at heq
      cases hab : abortedAt cfg st.iter with
      | true =>
        rw [hab] at heq
        simp only [reduceIte] at heq
        injection heq with h1 h2
        subst h1
        subst h2
        exact ⟨fun hc => absurd hc (by rintro (h | h) <;> exact absurd h (by decide)),
               fun _ => ⟨rfl, rfl, hinv⟩,
               fun m hm => absurd hm (by simp)⟩
      | false =>
        rw [hab] at heq
        simp only [Bool.false_eq_true, if_false] at heq
        cases hvis : st.visitedOrder.contains nodeId with
        | true =>
          rw [hvis] at heq
          simp only [reduceIte] at heq
          exact ih { st with iter := st.iter + 1, queue := rest } hinv _ _ heq
        | false =>
          rw [hvis] at heq
          simp only [Bool.false_eq_true, if_false] at heq
          cases hfind : List.find? (fun n => n.id == nodeId) w.nodes with
          | none =>
            rw [hfind] at heq
            simp only [] at heq
            refine ih { st with iter := st.iter + 1, queue := rest, visitedOrder := st.visitedOrder ++ [nodeId] } ?_ _ _ heq
            intro id ne hget
            obtain ⟨h1, h2⟩ := hinv id ne hget
            exact ⟨h1, List.mem_append_left _ h2⟩
          | some node =>
            rw [hfind] at heq
            simp only [] at heq
            have hnid : node.id = nodeId := by
              have hp := List.find?_some hfind
              exact eq_of_beq hp
            rcases hexec : executeNodeE cfg w node env aliasMap singleNodeId st.core with ⟨core1, osnd⟩
            have hchar := executeNodeE_charS cfg w node env aliasMap singleNodeId st.core hlog hnu
            rw [hexec] at heq hchar
            simp only [] at hchar
            cases osnd with
            | some msg =>
              simp only [logE, hlog, setStatus] at heq
              injection heq with h1 h2
              subst h1
              subst h2
              refine ⟨fun hc => absurd hc (by rintro (h | h) <;> simp at h),
                      fun hm => absurd hm (by simp),
                      fun m hm => ⟨rfl, rfl, nodeId, getLast?_app_single _ _, ?_, ?_⟩⟩
              · obtain ⟨neE, hgetE, _, hsomeE⟩ := hchar.2.2
                rw [hnid] at hgetE
                exact ⟨neE, hgetE, hsomeE msg rfl⟩
              · intro id ne hid hget
                rw [hchar.2.1 id (by rw [hnid]; exact hid)] at hget
                obtain ⟨h1, h2⟩ := hinv id ne hget
                exact ⟨h1, List.mem_append_left _ h2⟩
            | none =>
              simp only [] at heq
              have hinvC : ∀ id ne, aGet core1.ex.nodeExecutions id = some ne →
                  ne.status = NodeStatus.success ∧ id ∈ st.visitedOrder ++ [nodeId] := by
                intro id ne hget
                by_cases hid : id = node.id
                · subst hid
                  obtain ⟨neE, hgetE, hnone, _⟩ := hchar.2.2
                  rw [hgetE] at hget
                  injection hget with hne
                  subst hne
                  refine ⟨hnone rfl, ?_⟩
                  rw [hnid]
                  exact List.mem_append_right _ (List.mem_singleton.mpr rfl)
                · rw [hchar.2.1 id hid] at hget
                  obtain ⟨h1, h2⟩ := hinv id ne hget
                  exact ⟨h1, List.mem_append_left _ h2⟩
              cases hsing : singleNodeId.isSome with
              | true =>
                rw [hsing] at heq
                simp only [reduceIte] at heq
                obtain ⟨hdr, hcan, hthr⟩ := ih { core := core1, queue := rest, visitedOrder := st.visitedOrder ++ [nodeId], iter := st.iter + 1, observedAbort := st.observedAbort } hinvC est lexit heq
                refine ⟨fun h => ?_, fun h => hcan h, fun m hm => hthr m hm⟩
                obtain ⟨s1, s2, s3⟩ := hdr h
                exact ⟨s1.trans hchar.1, s2, s3⟩
              | false =>
                rw [hsing] at heq
                simp only [Bool.false_eq_true, if_false] at heq
                obtain ⟨hdr, hcan, hthr⟩ := ih { core := core1, queue := rest ++ ((getConnectedNodes w nodeId).map (fun n => n.id)).filter (fun i => !((st.visitedOrder ++ [nodeId]).contains i)), visitedOrder := st.visitedOrder ++ [nodeId], iter := st.iter + 1, observedAbort := st.observedAbort } hinvC est lexit heq
                refine ⟨fun h => ?_, fun h => hcan h, fun m hm => hthr m hm⟩
                obtain ⟨s1, s2, s3⟩ := hdr h
                exact ⟨s1.trans hchar.1, s2, s3⟩

theorem outerCatchE_ok (cfg : EngCfg) (est : EngSt) (msg : String)
    (hlog : ∀ e, cfg.onLogFail e = none) :
    outerCatchE cfg est msg = .ok
      ⟨{ est.core.ex with status := .error, logs := est.core.ex.logs ++ [⟨none, "💥 Workflow failed: " ++ msg, .error⟩] }, est.core.store, est.core.ctxs, est.visitedOrder, est.observedAbort⟩ := by
  simp [outerCatchE, logE, hlog, setStatus, mkResult]

theorem restoreGo_noThrow (cfg : EngCfg) (hlog : ∀ e, cfg.onLogFail e = none) :
    ∀ (l : List (String × NodeExecution)) (st : ExecSt),
      (restoreGo cfg st l).2 = none := by
  intro l
  induction l with
  | nil => intro st; rfl
  | cons p tl ih =>
    intro st
    obtain ⟨nid, ne⟩ := p
    simp only [restoreGo]
    cases ne.outputs with
    | none => exact ih st
    | some o => simp only [logE, hlog]; exact ih _

/-- C2 (amended): when neither progress callback ever throws,
`executeWorkflow` resolves with a snapshot for every workflow, environment
and options — every failure is encoded in the returned snapshot rather
than raised.  (The unamended claim is refuted by `C2_counterexample`: a
throwing `onLog` subscriber escapes `executeWorkflow`, because the engine
does not guard its logging calls.) -/
theorem C2_returns_snapshot (cfg : EngCfg) (w : Workflow) (env : Env)
    (options : Option EngOptions) (hsub : subscribersOk cfg) :
    ∃ r, executeWorkflowE cfg w env options = .ok r := by
  obtain ⟨hlog, hnu⟩ := hsub
  simp only [executeWorkflowE, logE, hlog]
  repeat' split
  all_goals try exact ⟨_, rfl⟩
  all_goals exact ⟨_, outerCatchE_ok _ _ _ hlog⟩

def c2w : Workflow := ⟨"w", "W", "s", [⟨"s", "starter", .nil⟩], []⟩

def c2cfg : EngCfg := ⟨fun _ => some (fun _ => .ok [] (.vObj .nil)), fun _ => none, fun _ _ => none, none⟩

def c2boomCfg : EngCfg := ⟨fun _ => some (fun _ => .ok [] (.vObj .nil)), fun _ => some "boom", fun _ _ => none, none⟩

/-- C2 counterexample: with an `onLog` subscriber that throws `"boom"`,
`executeWorkflow` rejects with `"boom"` instead of returning a snapshot —
the very first `🚀 Starting workflow` log call already escapes, because
`this.log(...)` calls the subscriber without any try/catch. -/
theorem C2_counterexample : executeWorkflowE c2boomCfg c2w [] none = .error "boom" := rfl

theorem C2_returns_snapshot_witness :
    subscribersOk c2cfg ∧ ∃ r, executeWorkflowE c2cfg c2w [] none = .ok r :=
  ⟨⟨fun _ => rfl, fun _ _ => rfl⟩,
   C2_returns_snapshot c2cfg c2w [] none ⟨fun _ => rfl, fun _ _ => rfl⟩⟩

theorem mem_of_getLast?A {α : Type} : ∀ {l : List α} {a : α}, l.getLast? = some a → a ∈ l := by
  intro l
  induction l with
  | nil => intro a h; exact absurd h (by simp)
  | cons b tl ih =>
    intro a h
    cases htl : tl.getLast? with
    | some c =>
      rw [List.getLast?_cons, htl] at h
      injection h with h
      subst h
      exact List.mem_cons_of_mem _ (ih htl)
    | none =>
      have : tl = [] := by
        cases tl with
        | nil => rfl
        | cons x xs => rw [List.getLast?_cons] at htl; cases h2 : (xs.getLast?) <;> rw [h2] at htl <;> simp at htl
      subst this
      rw [List.getLast?_cons] at h
      simp at h
      subst h
      exact List.mem_singleton.mpr rfl

/-- C1: in a full run with well-behaved progress callbacks, if the
returned snapshot records any node execution with status `error`, then the
workflow status is `error`, the failing node is the last node visited (no
node dequeued after it executed), every other recorded execution is a
success belonging to an earlier visit, and any node never visited — in
particular every node enqueued after the failing one — has no
`NodeExecution` entry at all. -/
theorem C1_error_halts (cfg : EngCfg) (w : Workflow) (env : Env)
    (hsub : subscribersOk cfg) (r : RunResult)
    (hr : executeWorkflowE cfg w env none = .ok r)
    (f : String) (nef : NodeExecution)
    (hget : aGet r.ex.nodeExecutions f = some nef) (herr : nef.status = .error) :
    r.ex.status = .error ∧
    r.visitedOrder.getLast? = some f ∧
    (∀ id ne, id ≠ f → aGet r.ex.nodeExecutions id = some ne →
      ne.status = .success ∧ id ∈ r.visitedOrder) ∧
    (∀ id, id ∉ r.visitedOrder → aGet r.ex.nodeExecutions id = none) := by
  obtain ⟨hlog, hnu⟩ := hsub
  simp only [executeWorkflowE, logE, hlog, Option.bind, normSingle] at hr
  cases hempt : w.nodes.isEmpty with
  | true =>
    rw [hempt] at hr
    simp only [reduceIte] at hr
    rw [outerCatchE_ok _ _ _ hlog] at hr
    injection hr with hr
    subst hr
    exact absurd hget (by simp [aGet])
  | false =>
    rw [hempt] at hr
    simp only [Bool.false_eq_true, if_false] at hr
    cases hf1 : List.find? (fun n => n.id == w.starterId) w.nodes with
    | none =>
      rw [hf1] at hr
      simp only [] at hr
      rw [outerCatchE_ok _ _ _ hlog] at hr
      injection hr with hr
      subst hr
      exact absurd hget (by simp [aGet])
    | some s0 =>
      rw [hf1] at hr
      simp only [] at hr
      rcases hloop : runLoop cfg w env (buildAliasMap w.nodes) none (fuelFor w)
          ⟨⟨⟨"exec", w.id, .running, [] ++ [⟨none, "🚀 Starting workflow: " ++ w.name, .info⟩], []⟩, [], []⟩, [s0.id], [], 0, false⟩
        with ⟨est, lexit⟩
      have hch := runLoop_charS cfg w env (buildAliasMap w.nodes) none hlog hnu (fuelFor w)
        ⟨⟨⟨"exec", w.id, .running, [] ++ [⟨none, "🚀 Starting workflow: " ++ w.name, .info⟩], []⟩, [], []⟩, [s0.id], [], 0, false⟩
        (fun id ne h => nomatch h) est lexit hloop
      rw [hloop] at hr
      cases lexit with
      | drained =>
        simp only [] at hr
        have hst : est.core.ex.status = ExecStatus.running := (hch.1 (Or.inl rfl)).1
        have hinv := (hch.1 (Or.inl rfl)).2.2
        rw [hst] at hr
        simp only [reduceIte, ne_eq, reduceCtorEq, not_false_eq_true, if_true, logE, hlog, setStatus] at hr
        injection hr with hr
        subst hr
        obtain ⟨hsu, _⟩ := hinv f nef hget
        rw [herr] at hsu
        exact absurd hsu (by simp)
      | fuelOut =>
        simp only [] at hr
        have hst : est.core.ex.status = ExecStatus.running := (hch.1 (Or.inr rfl)).1
        have hinv := (hch.1 (Or.inr rfl)).2.2
        rw [hst] at hr
        simp only [reduceIte, ne_eq, reduceCtorEq, not_false_eq_true, if_true, logE, hlog, setStatus] at hr
        injection hr with hr
        subst hr
        obtain ⟨hsu, _⟩ := hinv f nef hget
        rw [herr] at hsu
        exact absurd hsu (by simp)
      | cancelled =>
        simp only [] at hr
        have hst : est.core.ex.status = ExecStatus.cancelled := (hch.2.1 rfl).1
        have hinv := (hch.2.1 rfl).2.2
        rw [hst] at hr
        simp only [ne_eq, not_true_eq_false, if_false, reduceIte] at hr
        injection hr with hr
        subst hr
        obtain ⟨hsu, _⟩ := hinv f nef hget
        rw [herr] at hsu
        exact absurd hsu (by simp)
      | thrown m =>
        simp only [] at hr
        rw [outerCatchE_ok _ _ _ hlog] at hr
        injection hr with hr
        subst hr
        obtain ⟨_, _, f2, hlast, ⟨neE, hgetE, herrE⟩, hothers⟩ := hch.2.2 m rfl
        have hff : f = f2 := by
          by_contra hne
          obtain ⟨hsu, _⟩ := hothers f nef hne hget
          rw [herr] at hsu
          exact absurd hsu (by simp)
        subst hff
        refine ⟨rfl, hlast, fun id ne hne hg => hothers id ne hne hg, fun id hnv => ?_⟩
        cases hga : aGet est.core.ex.nodeExecutions id with
        | none => rfl
        | some ne2 =>
          by_cases hif : id = f
          · subst hif
            exact absurd (mem_of_getLast?A hlast) hnv
          · obtain ⟨_, hmem⟩ := hothers id ne2 hif hga
            exact absurd hmem hnv

def c1w : Workflow := ⟨"w", "W", "s", [⟨"s", "starter", .nil⟩, ⟨"A", "boom", .nil⟩, ⟨"B", "plain", .nil⟩], [⟨"e1", "s", "A"⟩, ⟨"e2", "A", "B"⟩]⟩

def c1cfg : EngCfg :=
  ⟨fun t => if t = "boom" then some (fun _ => .err [] "kaput") else some (fun _ => .ok [] (.vObj .nil)),
   fun _ => none, fun _ _ => none, none⟩

def c1r : RunResult := runResultD c1cfg c1w [] none

def c1neA : NodeExecution := (aGet c1r.ex.nodeExecutions "A").getD ⟨"A", .error, none, none⟩

theorem C1_error_halts_witness :
    c1r.ex.status = .error ∧
    c1r.visitedOrder.getLast? = some "A" ∧
    (∀ id ne, id ≠ "A" → aGet c1r.ex.nodeExecutions id = some ne →
      ne.status = .success ∧ id ∈ c1r.visitedOrder) ∧
    (∀ id, id ∉ c1r.visitedOrder → aGet c1r.ex.nodeExecutions id = none) :=
  C1_error_halts c1cfg c1w [] ⟨fun _ => rfl, fun _ _ => rfl⟩ c1r rfl "A" c1neA rfl rfl

/-- C9: if the abort check fired (i.e. `stop()` was observed before a
pending dequeue — the returned ghost flag `observedAbort`), the run ends
with status `cancelled`, the status is not overwritten to `success`, and
no node execution is marked `error`. -/
theorem C9_stop_cancels (cfg : EngCfg) (w : Workflow) (env : Env)
    (hsub : subscribersOk cfg) (r : RunResult)
    (hr : executeWorkflowE cfg w env none = .ok r)
    (hobs : r.observedAbort = true) :
    r.ex.status = .cancelled ∧
    (∀ id ne, aGet r.ex.nodeExecutions id = some ne → ne.status ≠ .error) := by
  obtain ⟨hlog, hnu⟩ := hsub
  simp only [executeWorkflowE, logE, hlog, Option.bind, normSingle] at hr
  cases hempt : w.nodes.isEmpty with
  | true =>
    rw [hempt] at hr
    simp only [reduceIte] at hr
    rw [outerCatchE_ok _ _ _ hlog] at hr
    injection hr with hr
    subst hr
    simp at hobs
  | false =>
    rw [hempt] at hr
    simp only [Bool.false_eq_true, if_false] at hr
    cases hf1 : List.find? (fun n => n.id == w.starterId) w.nodes with
    | none =>
      rw [hf1] at hr
      simp only [] at hr
      rw [outerCatchE_ok _ _ _ hlog] at hr
      injection hr with hr
      subst hr
      simp at hobs
    | some s0 =>
      rw [hf1] at hr
      simp only [] at hr
      rcases hloop : runLoop cfg w env (buildAliasMap w.nodes) none (fuelFor w)
          ⟨⟨⟨"exec", w.id, .running, [] ++ [⟨none, "🚀 Starting workflow: " ++ w.name, .info⟩], []⟩, [], []⟩, [s0.id], [], 0, false⟩
        with ⟨est, lexit⟩
      have hch := runLoop_charS cfg w env (buildAliasMap w.nodes) none hlog hnu (fuelFor w)
        ⟨⟨⟨"exec", w.id, .running, [] ++ [⟨none, "🚀 Starting workflow: " ++ w.name, .info⟩], []⟩, [], []⟩, [s0.id], [], 0, false⟩
        (fun id ne h => nomatch h) est lexit hloop
      rw [hloop] at hr
      cases lexit with
      | drained =>
        simp only [] at hr
        have hst : est.core.ex.status = ExecStatus.running := (hch.1 (Or.inl rfl)).1
        have hoa : est.observedAbort = false := (hch.1 (Or.inl rfl)).2.1
        rw [hst] at hr
        simp only [reduceIte, ne_eq, reduceCtorEq, not_false_eq_true, if_true, logE, hlog, setStatus] at hr
        injection hr with hr
        subst hr
        simp only [mkResult] at hobs
        rw [hoa] at hobs
        exact absurd hobs (by simp)
      | fuelOut =>
        simp only [] at hr
        have hst : est.core.ex.status = ExecStatus.running := (hch.1 (Or.inr rfl)).1
        have hoa : est.observedAbort = false := (hch.1 (Or.inr rfl)).2.1
        rw [hst] at hr
        simp only [reduceIte, ne_eq, reduceCtorEq, not_false_eq_true, if_true, logE, hlog, setStatus] at hr
        injection hr with hr
        subst hr
        simp only [mkResult] at hobs
        rw [hoa] at hobs
        exact absurd hobs (by simp)
      | cancelled =>
        simp only [] at hr
        have hst : est.core.ex.status = ExecStatus.cancelled := (hch.2.1 rfl).1
        have hinv := (hch.2.1 rfl).2.2
        rw [hst] at hr
        simp only [ne_eq, not_true_eq_false, if_false, reduceIte] at hr
        injection hr with hr
        subst hr
        refine ⟨hst, fun id ne hg hs => ?_⟩
        obtain ⟨hsu, _⟩ := hinv id ne hg
        rw [hs] at hsu
        exact absurd hsu (by simp)
      | thrown m =>
        simp only [] at hr
        rw [outerCatchE_ok _ _ _ hlog] at hr
        injection hr with hr
        subst hr
        have hoa : est.observedAbort = false := (hch.2.2 m rfl).2.1
        simp only [] at hobs
        rw [hoa] at hobs
        exact absurd hobs (by simp)

def c9cfg : EngCfg := ⟨fun _ => some (fun _ => .ok [] (.vObj .nil)), fun _ => none, fun _ _ => none, some 0⟩

def c9w : Workflow := ⟨"w", "W", "s", [⟨"s", "starter", .nil⟩, ⟨"A", "plain", .nil⟩, ⟨"B", "plain", .nil⟩], [⟨"e1", "s", "A"⟩, ⟨"e2", "A", "B"⟩]⟩

def c9r : RunResult := runResultD c9cfg c9w [] none

theorem C9_stop_cancels_witness :
    c9r.ex.status = .cancelled ∧
    (∀ id ne, aGet c9r.ex.nodeExecutions id = some ne → ne.status ≠ .error) :=
  C9_stop_cancels c9cfg c9w [] ⟨fun _ => rfl, fun _ _ => rfl⟩ c9r rfl rfl

/-- C10: in single-node mode the workflow's `starterId` must still resolve
to some node: when it does not, the run returns an `error` snapshot whose
final log is the `💥 Workflow failed: Start node not found` entry, with no
node visited, no block context created, and no `NodeExecution` recorded
beyond those already present in the supplied prior execution — even though
a selected node id was supplied (and may well exist). -/
theorem C10_starter_required (cfg : EngCfg) (w : Workflow) (env : Env)
    (hsub : subscribersOk cfg) (sel : String) (exq : Option WorkflowExecution)
    (hne : w.nodes.isEmpty = false)
    (hf : List.find? (fun n => n.id == w.starterId) w.nodes = none) :
    ∃ r, executeWorkflowE cfg w env (some ⟨some sel, exq⟩) = .ok r ∧
      r.ex.status = .error ∧ r.visitedOrder = [] ∧ r.ctxs = [] ∧
      r.ex.nodeExecutions = (exq.map (fun e => e.nodeExecutions)).getD [] ∧
      r.ex.logs.getLast? = some ⟨none, "💥 Workflow failed: Start node not found", .error⟩ := by
  obtain ⟨hlog, hnu⟩ := hsub
  simp only [executeWorkflowE, logE, hlog, Option.bind]
  cases exq with
  | none =>
    simp only [hne, Bool.false_eq_true, if_false, hf]
    exact ⟨_, outerCatchE_ok _ _ _ hlog, rfl, rfl, rfl, rfl, getLast?_app_single _ _⟩
  | some e =>
    simp only [hne, Bool.false_eq_true, if_false, hf]
    exact ⟨_, outerCatchE_ok _ _ _ hlog, rfl, rfl, rfl, rfl, getLast?_app_single _ _⟩

def c10w : Workflow := ⟨"w", "W", "ghost", [⟨"A", "plain", .nil⟩, ⟨"B", "plain", .nil⟩], [⟨"e1", "A", "B"⟩]⟩

def c10cfg : EngCfg := ⟨fun _ => some (fun _ => .ok [] (.vObj .nil)), fun _ => none, fun _ _ => none, none⟩

theorem C10_starter_required_witness :
    c10w.nodes.isEmpty = false ∧
    ∃ r, executeWorkflowE c10cfg c10w [] (some ⟨some "A", none⟩) = .ok r ∧
      r.ex.status = .error ∧ r.visitedOrder = [] ∧ r.ctxs = [] ∧
      r.ex.nodeExecutions = ((none : Option WorkflowExecution).map (fun e => e.nodeExecutions)).getD [] ∧
      r.ex.logs.getLast? = some ⟨none, "💥 Workflow failed: Start node not found", .error⟩ :=
  ⟨rfl, C10_starter_required c10cfg c10w [] ⟨fun _ => rfl, fun _ _ => rfl⟩ "A" none rfl rfl⟩

/-- The store produced by the single-node restore loop, as a pure fold. -/
def restoreStore (s : Store) : List (String × NodeExecution) → Store
  | [] => s
  | (nid, ne) :: tl =>
    restoreStore (match ne.outputs with | none => s | some o => aSet s nid o) tl

theorem restoreGo_char (cfg : EngCfg) (hlog : ∀ e, cfg.onLogFail e = none) :
    ∀ (l : List (String × NodeExecution)) (st : ExecSt),
      (restoreGo cfg st l).1.store = restoreStore st.store l ∧
      (restoreGo cfg st l).1.ex.nodeExecutions = st.ex.nodeExecutions ∧
      (restoreGo cfg st l).1.ex.status = st.ex.status ∧
      (restoreGo cfg st l).1.ctxs = st.ctxs := by
  intro l
  induction l with
  | nil => intro st; exact ⟨rfl, rfl, rfl, rfl⟩
  | cons p tl ih =>
    intro st
    obtain ⟨nid, ne⟩ := p
    simp only [restoreGo, restoreStore]
    cases ne.outputs with
    | none => exact ih st
    | some o =>
      simp only [logE, hlog]
      exact ih _

theorem restoreStore_notin : ∀ (tl : List (String × NodeExecution)) (s : Store) (nid : String),
    nid ∉ tl.map Prod.fst → aGet (restoreStore s tl) nid = aGet s nid := by
  intro tl
  induction tl with
  | nil => intro s nid h; rfl
  | cons p tl ih =>
    intro s nid h
    obtain ⟨k, ne⟩ := p
    simp only [List.map_cons, List.mem_cons] at h
    push_neg at h
    obtain ⟨hk, htl⟩ := h
    simp only [restoreStore]
    cases ne.outputs with
    | none => exact ih s nid htl
    | some o => rw [ih _ nid htl]; exact aGet_aSet_ne _ _ _ _ (fun hc => hk hc.symm)

theorem restoreStore_get : ∀ (l : List (String × NodeExecution)) (s : Store)
    (nid : String) (ne : NodeExecution) (o : ValueFields),
    (l.map Prod.fst).Nodup → aGet l nid = some ne → ne.outputs = some o →
    aGet (restoreStore s l) nid = some o := by
  intro l
  induction l with
  | nil => intro s nid ne o _ h1 _; exact absurd h1 (by simp [aGet])
  | cons p tl ih =>
    intro s nid ne o hnd h1 h2
    obtain ⟨k, ne'⟩ := p
    simp only [List.map_cons, List.nodup_cons] at hnd
    obtain ⟨hk, hndtl⟩ := hnd
    simp only [aGet] at h1
    by_cases hkn : k = nid
    · rw [if_pos hkn] at h1
      injection h1 with h1
      subst h1
      subst hkn
      simp only [restoreStore]
      rw [h2]
      rw [restoreStore_notin tl _ k hk]
      exact aGet_aSet_self _ _ _
    · rw [if_neg hkn] at h1
      simp only [restoreStore]
      cases ne'.outputs with
      | none => exact ih s nid ne o hndtl h1 h2
      | some o' => exact ih _ nid ne o hndtl h1 h2

theorem getNodeOutput_restored (c : RunCtx) (l : List (String × NodeExecution))
    (hst : c.store = restoreStore [] l)
    (hnd : (l.map Prod.fst).Nodup) (nid : String) (ne : NodeExecution) (o : ValueFields)
    (h1 : aGet l nid = some ne) (h2 : ne.outputs = some o)
    (hstar : nid ≠ "*") (hprev : nid ≠ "prev") (k : String) (hk : k ≠ "") :
    c.getNodeOutput nid (some k) = fGet o k := by
  have hget : aGet c.store nid = some o := by
    rw [hst]; exact restoreStore_get l [] nid ne o hnd h1 h2
  simp only [RunCtx.getNodeOutput, if_neg hstar, if_neg hprev]
  rw [hget]
  simp only [truthyKey, if_neg hk]

theorem executeNodeE_ctxs (cfg : EngCfg) (w : Workflow) (node : WorkflowNode) (env : Env)
    (aliasMap : AliasMap) (singleNodeId : Option String) (st : ExecSt)
    (run : RunCtx → BlockResult)
    (hlog : ∀ e, cfg.onLogFail e = none)
    (hnu : ∀ nid ne, cfg.onNodeUpdateFail nid ne = none)
    (hreg : cfg.registry node.type = some run) :
    (executeNodeE cfg w node env aliasMap singleNodeId st).1.ctxs =
      st.ctxs ++ [nodeRunCtx w node env aliasMap singleNodeId st.store] := by
  by_cases hstart : node.type = "starter"
  case pos =>
    rw [hstart] at hreg
    simp only [executeNodeE, executeNodeRun, executeNodeOk, nodeCatch, putNE, logE, hnu, hlog, hreg, hstart, ne_eq, not_true_eq_false, not_false_eq_true, if_true, if_false, ite_true, ite_false, reduceIte]
    repeat' split
    all_goals rfl
  case neg =>
    simp only [executeNodeE, executeNodeRun, executeNodeOk, nodeCatch, putNE, logE, hnu, hlog, hreg, hstart, ne_eq, not_true_eq_false, not_false_eq_true, if_true, if_false, ite_true, ite_false, reduceIte]
    repeat' split
    all_goals rfl

/-- C8: in single-node mode with a supplied prior execution snapshot, the
outputs recorded in that snapshot are all copied into the output store
before the selected node runs: the one block context created carries the
fully restored store, so `getNodeOutput` inside the block reads an
upstream node's recorded outputs without that node executing.  Only the
selected node is visited and no successors are enqueued, and every other
node's `NodeExecution` entry is exactly the snapshot's. -/
theorem C8_single_node_mode (cfg : EngCfg) (w : Workflow) (env : Env)
    (hsub : subscribersOk cfg) (habort : cfg.abortFrom = none)
    (sel : String) (ex0 : WorkflowExecution) (nd : WorkflowNode) (s0 : WorkflowNode)
    (run : RunCtx → BlockResult)
    (hsel : normSingle (some sel) = some sel)
    (hs0 : List.find? (fun n => n.id == w.starterId) w.nodes = some s0)
    (hfsel : List.find? (fun n => n.id == sel) w.nodes = some nd)
    (hreg : cfg.registry nd.type = some run) :
    ∃ r ctx, executeWorkflowE cfg w env (some ⟨some sel, some ex0⟩) = .ok r ∧
      r.visitedOrder = [nd.id] ∧
      r.ctxs = [ctx] ∧
      ctx = nodeRunCtx w nd env (buildAliasMap w.nodes) (some sel) (restoreStore [] ex0.nodeExecutions) ∧
      (∀ id, id ≠ nd.id → aGet r.ex.nodeExecutions id = aGet ex0.nodeExecutions id) ∧
      (∀ nid ne o, (ex0.nodeExecutions.map Prod.fst).Nodup →
        aGet ex0.nodeExecutions nid = some ne → ne.outputs = some o →
        nid ≠ "*" → nid ≠ "prev" → ∀ k, k ≠ "" →
        ctx.getNodeOutput nid (some k) = fGet o k) := by
  obtain ⟨hlog, hnu⟩ := hsub
  have hndid : nd.id = sel := by
    have hb := List.find?_some hfsel
    exact eq_of_beq hb
  have hempt : w.nodes.isEmpty = false := by
    cases hn : w.nodes with
    | nil => rw [hn] at hfsel; exact absurd hfsel (by simp)
    | cons a l => rfl
  simp only [executeWorkflowE, logE, hlog, Option.bind, hsel, hempt, Bool.false_eq_true, if_false, hs0]
  rcases hres : restoreGo cfg ⟨⟨ex0.id, ex0.workflowId, .running, ex0.logs ++ [⟨none, "🚀 Starting workflow: " ++ w.name, .info⟩], ex0.nodeExecutions⟩, [], []⟩ ex0.nodeExecutions with ⟨st2, o2⟩
  have hno := restoreGo_noThrow cfg hlog ex0.nodeExecutions ⟨⟨ex0.id, ex0.workflowId, .running, ex0.logs ++ [⟨none, "🚀 Starting workflow: " ++ w.name, .info⟩], ex0.nodeExecutions⟩, [], []⟩
  rw [hres] at hno
  simp only [] at hno
  subst hno
  have hchar := restoreGo_char cfg hlog ex0.nodeExecutions ⟨⟨ex0.id, ex0.workflowId, .running, ex0.logs ++ [⟨none, "🚀 Starting workflow: " ++ w.name, .info⟩], ex0.nodeExecutions⟩, [], []⟩
  rw [hres] at hchar
  simp only [] at hchar
  rw [hres]
  simp only []
  rw [hfsel]
  simp only []
  obtain ⟨K, hK⟩ : ∃ K, fuelFor w = K + 2 := ⟨(dedupIds w).length * (w.nodes.length + 1), rfl⟩
  rw [hK]
  simp only [runLoop, abortedAt, habort, Bool.false_eq_true, if_false, List.nil_append, List.contains_nil, hndid]
  rw [hfsel]
  simp only []
  rcases hexe : executeNodeE cfg w nd env (buildAliasMap w.nodes) (some sel) st2 with ⟨core1, osnd⟩
  have hctx := executeNodeE_ctxs cfg w nd env (buildAliasMap w.nodes) (some sel) st2 run hlog hnu hreg
  have hech := executeNodeE_charS cfg w nd env (buildAliasMap w.nodes) (some sel) st2 hlog hnu
  rw [hexe] at hctx hech
  simp only [] at hctx hech
  cases osnd with
  | some msg =>
    simp only [logE, hlog, setStatus]
    rw [outerCatchE_ok _ _ _ hlog]
    refine ⟨_, nodeRunCtx w nd env (buildAliasMap w.nodes) (some sel) st2.store, rfl, rfl, ?_, ?_, ?_, ?_⟩
    · show core1.ctxs = _
      rw [hctx, hchar.2.2.2]
      rfl
    · rw [hchar.1]
    · intro id hid
      show aGet core1.ex.nodeExecutions id = _
      rw [hech.2.1 id (by rw [hndid]; exact hid), hchar.2.1]
    · intro nid ne o hndup h1 h2 hstar hprev k hk
      exact getNodeOutput_restored _ ex0.nodeExecutions hchar.1 hndup nid ne o h1 h2 hstar hprev k hk
  | none =>
    simp only [logE, hlog, setStatus, Option.isSome_some, if_true, reduceIte]
    have hst1 : core1.ex.status = ExecStatus.running := hech.1.trans hchar.2.2.1
    rw [hst1]
    simp only [ne_eq, reduceCtorEq, not_false_eq_true, if_true, logE, hlog, setStatus, mkResult]
    refine ⟨_, nodeRunCtx w nd env (buildAliasMap w.nodes) (some sel) st2.store, rfl, rfl, ?_, ?_, ?_, ?_⟩
    · show core1.ctxs = _
      rw [hctx, hchar.2.2.2]
      rfl
    · rw [hchar.1]
    · intro id hid
      show aGet core1.ex.nodeExecutions id = _
      rw [hech.2.1 id (by rw [hndid]; exact hid), hchar.2.1]
    · intro nid ne o hndup h1 h2 hstar hprev k hk
      exact getNodeOutput_restored _ ex0.nodeExecutions hchar.1 hndup nid ne o h1 h2 hstar hprev k hk

def c8run : RunCtx → BlockResult := fun _ => .ok [] (.vObj .nil)

def c8cfg : EngCfg := ⟨fun _ => some c8run, fun _ => none, fun _ _ => none, none⟩

def c8w : Workflow := ⟨"w", "W", "s", [⟨"s", "starter", .nil⟩, ⟨"upstream", "plain", .nil⟩, ⟨"T", "plain", .nil⟩], [⟨"e1", "s", "upstream"⟩, ⟨"e2", "upstream", "T"⟩]⟩

def c8nd : WorkflowNode := ⟨"T", "plain", .nil⟩

def c8s0 : WorkflowNode := ⟨"s", "starter", .nil⟩

def c8ex0 : WorkflowExecution :=
  ⟨"prior", "w", .success, [], [("upstream", ⟨"upstream", .success, some (.cons "value" (.vNum 42) .nil), none⟩)]⟩

theorem C8_single_node_mode_witness :
    ∃ r ctx, executeWorkflowE c8cfg c8w [] (some ⟨some "T", some c8ex0⟩) = .ok r ∧
      r.visitedOrder = [c8nd.id] ∧
      r.ctxs = [ctx] ∧
      ctx = nodeRunCtx c8w c8nd [] (buildAliasMap c8w.nodes) (some "T") (restoreStore [] c8ex0.nodeExecutions) ∧
      (∀ id, id ≠ c8nd.id → aGet r.ex.nodeExecutions id = aGet c8ex0.nodeExecutions id) ∧
      (∀ nid ne o, (c8ex0.nodeExecutions.map Prod.fst).Nodup →
        aGet c8ex0.nodeExecutions nid = some ne → ne.outputs = some o →
        nid ≠ "*" → nid ≠ "prev" → ∀ k, k ≠ "" →
        ctx.getNodeOutput nid (some k) = fGet o k) :=
  C8_single_node_mode c8cfg c8w [] ⟨fun _ => rfl, fun _ _ => rfl⟩ rfl "T" c8ex0 c8nd c8s0 c8run rfl rfl rfl rfl

/-- The successor ids a visit enqueues: `getConnectedNodes(...).map(n => n.id)`.
Because `getConnectedNodes` filters `workflow.nodes`, the resulting order
is node-declaration order, not edge-declaration order. -/
def succIds (w : Workflow) (id : String) : List String :=
  (getConnectedNodes w id).map (fun n => n.id)

/-- Reference breadth-first traversal mirroring the engine's queue
discipline on a clean run: dequeue, skip if already visited, else visit
and enqueue the not-yet-visited successors in node-declaration order. -/
def bfsGo (w : Workflow) : Nat → List String → List String → List String
  | 0, _, vis => vis
  | _ + 1, [], vis => vis
  | fuel + 1, q :: rest, vis =>
    if vis.contains q then bfsGo w fuel rest vis
    else bfsGo w fuel (rest ++ (succIds w q).filter (fun i => !((vis ++ [q]).contains i))) (vis ++ [q])

/-- The visit order of a clean full run, as a function of the workflow alone. -/
def bfsRef (w : Workflow) : List String := bfsGo w (fuelFor w) [w.starterId] []

theorem executeNodeE_noThrow (cfg : EngCfg) (w : Workflow) (node : WorkflowNode) (env : Env)
    (aliasMap : AliasMap) (singleNodeId : Option String) (st : ExecSt)
    (run : RunCtx → BlockResult)
    (hlog : ∀ e, cfg.onLogFail e = none)
    (hnu : ∀ nid ne, cfg.onNodeUpdateFail nid ne = none)
    (hreg : cfg.registry node.type = some run)
    (hrun : ∀ ctx, ∃ sets res, run ctx = .ok sets res) :
    (executeNodeE cfg w node env aliasMap singleNodeId st).2 = none := by
  obtain ⟨sets, res, hrc⟩ := hrun (nodeRunCtx w node env aliasMap singleNodeId st.store)
  by_cases hstart : node.type = "starter"
  case pos =>
    rw [hstart] at hreg
    simp only [executeNodeE, executeNodeRun, putNE, logE, hnu, hlog, hreg, hstart, ne_eq, not_true_eq_false, not_false_eq_true, if_true, if_false, ite_true, ite_false, reduceIte]
    rw [hrc]
    simp only []
    exact executeNodeOk_noThrow cfg node _ sets res hlog hnu
  case neg =>
    simp only [executeNodeE, executeNodeRun, putNE, logE, hnu, hlog, hreg, hstart, ne_eq, not_true_eq_false, not_false_eq_true, if_true, if_false, ite_true, ite_false, reduceIte]
    rw [hrc]
    simp only []
    exact executeNodeOk_noThrow cfg node _ sets res hlog hnu

theorem runLoop_visits (cfg : EngCfg) (w : Workflow) (env : Env) (aliasMap : AliasMap)
    (hlog : ∀ e, cfg.onLogFail e = none)
    (hnu : ∀ nid ne, cfg.onNodeUpdateFail nid ne = none)
    (habort : cfg.abortFrom = none)
    (hblocks : ∀ node, node ∈ w.nodes →
      ∃ run, cfg.registry node.type = some run ∧ ∀ ctx, ∃ sets res, run ctx = .ok sets res) :
    ∀ (fuel : Nat) (st : EngSt),
      (∀ id, id ∈ st.queue → (List.find? (fun n => n.id == id) w.nodes).isSome) →
      (runLoop cfg w env aliasMap none fuel st).1.visitedOrder = bfsGo w fuel st.queue st.visitedOrder := by
  intro fuel
  induction fuel with
  | zero => intro st hq; simp [runLoop, bfsGo]
  | succ fuel ih =>
    intro st hq
    cases hqe : st.queue with
    | nil => simp [runLoop, hqe, bfsGo]
    | cons nodeId rest =>
      simp only [runLoop, hqe, abortedAt, habort, bfsGo, Bool.false_eq_true, if_false]
      cases hvis : st.visitedOrder.contains nodeId with
      | true =>
        simp only [reduceIte]
        have := ih { st with iter := st.iter + 1, queue := rest }
          (fun id hid => hq id (by rw [hqe]; exact List.mem_cons_of_mem _ hid))
        exact this
      | false =>
        simp only [Bool.false_eq_true, if_false]
        have hsome := hq nodeId (by rw [hqe]; exact List.mem_cons_self _ _)
        obtain ⟨node, hfind⟩ := Option.isSome_iff_exists.mp hsome
        rw [hfind]
        simp only []
        have hmem : node ∈ w.nodes := List.mem_of_find?_eq_some hfind
        have hnid : node.id = nodeId := by
          have hb := List.find?_some hfind
          exact eq_of_beq hb
        obtain ⟨run, hreg, hrun⟩ := hblocks node hmem
        rcases hexe : executeNodeE cfg w node env aliasMap none st.core with ⟨core1, osnd⟩
        have hnt := executeNodeE_noThrow cfg w node env aliasMap none st.core run hlog hnu hreg hrun
        rw [hexe] at hnt
        simp only [] at hnt
        subst hnt
        simp only [Option.isSome_none, Bool.false_eq_true, if_false]
        have := ih ⟨core1, rest ++ (succIds w nodeId).filter (fun i => !((st.visitedOrder ++ [nodeId]).contains i)), st.visitedOrder ++ [nodeId], st.iter + 1, st.observedAbort⟩ ?_
        · simp only [succIds]
          exact this
        · intro id hid
          simp only [List.mem_append] at hid
          cases hid with
          | inl h => exact hq id (by rw [hqe]; exact List.mem_cons_of_mem _ h)
          | inr h =>
            have h2 := List.mem_of_mem_filter h
            simp only [succIds, List.mem_map] at h2
            obtain ⟨n2, hn2mem, hn2id⟩ := h2
            have hn2 : n2 ∈ w.nodes := List.mem_of_mem_filter hn2mem
            exact List.find?_isSome.mpr ⟨n2, hn2, by rw [hn2id]; exact beq_self_eq_true _⟩

theorem bfsGo_prefix (w : Workflow) : ∀ (fuel : Nat) (q vis : List String),
    ∃ t, bfsGo w fuel q vis = vis ++ t := by
  intro fuel
  induction fuel with
  | zero => intro q vis; exact ⟨[], by simp [bfsGo]⟩
  | succ fuel ih =>
    intro q vis
    cases q with
    | nil => exact ⟨[], by simp [bfsGo]⟩
    | cons a rest =>
      simp only [bfsGo]
      cases hvis : vis.contains a with
      | true => simp only [reduceIte]; exact ih rest vis
      | false =>
        simp only [Bool.false_eq_true, if_false]
        obtain ⟨t, ht⟩ := ih (rest ++ (succIds w a).filter (fun i => !((vis ++ [a]).contains i))) (vis ++ [a])
        exact ⟨[a] ++ t, by rw [ht, List.append_assoc]⟩

theorem bfsGo_nodup (w : Workflow) : ∀ (fuel : Nat) (q vis : List String),
    vis.Nodup → (bfsGo w fuel q vis).Nodup := by
  intro fuel
  induction fuel with
  | zero => intro q vis h; simpa [bfsGo] using h
  | succ fuel ih =>
    intro q vis h
    cases q with
    | nil => simpa [bfsGo] using h
    | cons a rest =>
      simp only [bfsGo]
      cases hvis : vis.contains a with
      | true => simp only [reduceIte]; exact ih rest vis h
      | false =>
        simp only [Bool.false_eq_true, if_false]
        refine ih _ _ ?_
        have hna : a ∉ vis := by
          simp [List.contains] at hvis
          exact hvis
        simp [List.nodup_append, h, hna]

theorem contains_false_not_mem {l : List String} {a : String} (h : l.contains a = false) : a ∉ l := by
  simp [List.contains] at h
  exact h

theorem contains_true_mem {l : List String} {a : String} (h : l.contains a = true) : a ∈ l := by
  simp [List.contains] at h
  exact h

theorem bfsGo_sound (w : Workflow) (P : String → Prop)
    (hP : ∀ x, P x → ∀ y, y ∈ succIds w x → P y) :
    ∀ (fuel : Nat) (q vis : List String),
      (∀ id ∈ vis, P id) → (∀ id ∈ q, P id) →
      ∀ id ∈ bfsGo w fuel q vis, P id := by
  intro fuel
  induction fuel with
  | zero => intro q vis hv hq id hid; exact hv id (by simpa [bfsGo] using hid)
  | succ fuel ih =>
    intro q vis hv hq id hid
    cases q with
    | nil => exact hv id (by simpa [bfsGo] using hid)
    | cons a rest =>
      simp only [bfsGo] at hid
      cases hvis : vis.contains a with
      | true =>
        rw [hvis] at hid
        simp only [reduceIte] at hid
        exact ih rest vis hv (fun i hi => hq i (List.mem_cons_of_mem _ hi)) id hid
      | false =>
        rw [hvis] at hid
        simp only [Bool.false_eq_true, if_false] at hid
        have hPa : P a := hq a (List.mem_cons_self _ _)
        refine ih _ _ ?_ ?_ id hid
        · intro i hi
          rw [List.mem_append] at hi
          cases hi with
          | inl h => exact hv i h
          | inr h => rw [List.mem_singleton] at h; subst h; exact hPa
        · intro i hi
          rw [List.mem_append] at hi
          cases hi with
          | inl h => exact hq i (List.mem_cons_of_mem _ h)
          | inr h => exact hP a hPa i (List.mem_of_mem_filter h)

def unvisCount (w : Workflow) (vis : List String) : Nat :=
  ((dedupIds w).filter (fun i => !(vis.contains i))).length

def bfsMeasure (w : Workflow) (q vis : List String) : Nat :=
  unvisCount w vis * (w.nodes.length + 1) + q.length

theorem contains_append_single (vis : List String) (a i : String) :
    (vis ++ [a]).contains i = (vis.contains i || (a == i)) := by
  simp only [List.contains, List.elem_eq_mem, List.mem_append, List.mem_singleton]
  by_cases h : i = a
  · subst h
    simp
  · have h2 : (a == i) = false := beq_eq_false_iff_ne.mpr (Ne.symm h)
    simp [h, h2]

theorem filter_unvis_step : ∀ (l : List String) (vis : List String) (a : String),
    l.Nodup → a ∈ l → vis.contains a = false →
    (l.filter (fun i => !(vis.contains i))).length =
      (l.filter (fun i => !((vis ++ [a]).contains i))).length + 1 := by
  intro l
  induction l with
  | nil => intro vis a _ h _; exact absurd h (List.not_mem_nil a)
  | cons b tl ih =>
    intro vis a hnd hmem hvis
    rw [List.nodup_cons] at hnd
    obtain ⟨hbtl, hndtl⟩ := hnd
    by_cases hba : b = a
    · subst hba
      have htl : tl.filter (fun i => !((vis ++ [b]).contains i)) = tl.filter (fun i => !(vis.contains i)) := by
        refine List.filter_congr ?_
        intro i hi
        have hib : ¬(b == i) = true := by
          intro hc
          exact hbtl (by rw [eq_of_beq hc]; exact hi)
        rw [contains_append_single]
        simp only [Bool.or_eq_true] at *
        cases hbi : (b == i) with
        | true => exact absurd hbi hib
        | false => simp
      rw [List.filter_cons, List.filter_cons]
      rw [hvis]
      have hca : (vis ++ [b]).contains b = true := by
        rw [contains_append_single, hvis, beq_self_eq_true]
        rfl
      rw [hca]
      simp only [Bool.not_false, Bool.not_true, Bool.false_eq_true, if_true, if_false, reduceIte]
      rw [htl, List.length_cons]
    · rw [List.filter_cons, List.filter_cons]
      have hbmem : a ∈ tl := by
        cases List.mem_cons.mp hmem with
        | inl h => exact absurd h.symm hba
        | inr h => exact h
      have hcb : (vis ++ [a]).contains b = vis.contains b := by
        rw [contains_append_single]
        have : (a == b) = false := beq_eq_false_iff_ne.mpr (fun hc => hba hc.symm)
        rw [this, Bool.or_false]
      rw [hcb]
      cases hvb : vis.contains b with
      | true => simp only [Bool.not_true, if_false, reduceIte]; exact ih vis a hndtl hbmem hvis
      | false =>
        simp only [Bool.not_false, if_true, reduceIte, List.length_cons]
        rw [ih vis a hndtl hbmem hvis]

theorem succIds_mem_dedup (w : Workflow) {x y : String} (h : y ∈ succIds w x) :
    y ∈ dedupIds w := by
  simp only [succIds, List.mem_map] at h
  obtain ⟨n, hn, hid⟩ := h
  have hn2 : n ∈ w.nodes := List.mem_of_mem_filter hn
  rw [dedupIds, List.mem_dedup]
  exact List.mem_map.mpr ⟨n, hn2, hid⟩

theorem succIds_filter_le (w : Workflow) (x : String) (p : String → Bool) :
    ((succIds w x).filter p).length ≤ w.nodes.length := by
  calc ((succIds w x).filter p).length ≤ (succIds w x).length := List.length_filter_le _ _
    _ = (getConnectedNodes w x).length := List.length_map _ _
    _ ≤ w.nodes.length := List.length_filter_le _ _

theorem bfsGo_complete (w : Workflow) : ∀ (fuel : Nat) (q vis : List String),
    bfsMeasure w q vis < fuel →
    (∀ id ∈ q, id ∈ dedupIds w) →
    (∀ x ∈ vis, ∀ y ∈ succIds w x, y ∈ vis ∨ y ∈ q) →
    (∀ id ∈ q, id ∈ bfsGo w fuel q vis) ∧
    (∀ x ∈ bfsGo w fuel q vis, ∀ y ∈ succIds w x, y ∈ bfsGo w fuel q vis) := by
  intro fuel
  induction fuel with
  | zero => intro q vis hm; exact absurd hm (Nat.not_lt_zero _)
  | succ fuel ih =>
    intro q vis hm hq hI
    cases q with
    | nil =>
      refine ⟨fun id hid => absurd hid (List.not_mem_nil id), fun x hx y hy => ?_⟩
      simp only [bfsGo] at *
      cases hI x hx y hy with
      | inl h => exact h
      | inr h => exact absurd h (List.not_mem_nil y)
    | cons a rest =>
      simp only [bfsGo]
      cases hvis : vis.contains a with
      | true =>
        simp only [reduceIte]
        have hamem : a ∈ vis := contains_true_mem hvis
        have hm' : bfsMeasure w rest vis < fuel := by
          simp only [bfsMeasure, List.length_cons] at hm ⊢
          omega
        have hI' : ∀ x ∈ vis, ∀ y ∈ succIds w x, y ∈ vis ∨ y ∈ rest := by
          intro x hx y hy
          cases hI x hx y hy with
          | inl h => exact Or.inl h
          | inr h =>
            cases List.mem_cons.mp h with
            | inl h2 => exact Or.inl (h2 ▸ hamem)
            | inr h2 => exact Or.inr h2
        obtain ⟨hA, hB⟩ := ih rest vis hm' (fun id hid => hq id (List.mem_cons_of_mem _ hid)) hI'
        refine ⟨fun id hid => ?_, hB⟩
        cases List.mem_cons.mp hid with
        | inl h2 =>
          obtain ⟨t, ht⟩ := bfsGo_prefix w fuel rest vis
          rw [ht]
          exact List.mem_append_left _ (h2 ▸ hamem)
        | inr h2 => exact hA id h2
      | false =>
        simp only [Bool.false_eq_true, if_false]
        have hanot : a ∉ vis := contains_false_not_mem hvis
        have hadedup : a ∈ dedupIds w := hq a (List.mem_cons_self _ _)
        have hstep : unvisCount w vis = unvisCount w (vis ++ [a]) + 1 := by
          simp only [unvisCount]
          exact filter_unvis_step (dedupIds w) vis a (List.nodup_dedup _) hadedup hvis
        have hflen : ((succIds w a).filter (fun i => !((vis ++ [a]).contains i))).length ≤ w.nodes.length :=
          succIds_filter_le w a _
        have hm' : bfsMeasure w (rest ++ (succIds w a).filter (fun i => !((vis ++ [a]).contains i))) (vis ++ [a]) < fuel := by
          simp only [bfsMeasure, List.length_cons, List.length_append] at hm ⊢
          rw [hstep] at hm
          have hexp : (unvisCount w (vis ++ [a]) + 1) * (w.nodes.length + 1) =
              unvisCount w (vis ++ [a]) * (w.nodes.length + 1) + (w.nodes.length + 1) := by ring
          rw [hexp] at hm
          omega
        have hq' : ∀ id ∈ rest ++ (succIds w a).filter (fun i => !((vis ++ [a]).contains i)), id ∈ dedupIds w := by
          intro id hid
          cases List.mem_append.mp hid with
          | inl h => exact hq id (List.mem_cons_of_mem _ h)
          | inr h => exact succIds_mem_dedup w (List.mem_of_mem_filter h)
        have hI' : ∀ x ∈ vis ++ [a], ∀ y ∈ succIds w x,
            y ∈ vis ++ [a] ∨ y ∈ rest ++ (succIds w a).filter (fun i => !((vis ++ [a]).contains i)) := by
          intro x hx y hy
          cases List.mem_append.mp hx with
          | inl h =>
            cases hI x h y hy with
            | inl h2 => exact Or.inl (List.mem_append_left _ h2)
            | inr h2 =>
              cases List.mem_cons.mp h2 with
              | inl h3 => exact Or.inl (List.mem_append_right _ (h3 ▸ List.mem_singleton.mpr rfl))
              | inr h3 => exact Or.inr (List.mem_append_left _ h3)
          | inr h =>
            rw [List.mem_singleton] at h
            subst h
            cases hcy : (vis ++ [x]).contains y with
            | true => exact Or.inl (contains_true_mem hcy)
            | false =>
              refine Or.inr (List.mem_append_right _ ?_)
              rw [List.mem_filter]
              exact ⟨hy, by rw [hcy]; rfl⟩
        obtain ⟨hA, hB⟩ := ih _ _ hm' hq' hI'
        refine ⟨fun id hid => ?_, hB⟩
        cases List.mem_cons.mp hid with
        | inl h2 =>
          obtain ⟨t, ht⟩ := bfsGo_prefix w fuel _ (vis ++ [a])
          rw [ht]
          subst h2
          exact List.mem_append_left _ (List.mem_append_right _ (List.mem_singleton.mpr rfl))
        | inr h2 => exact hA id (List.mem_append_left _ h2)

/-- A node id is reachable when the starter id steps to it through the
successor lists the engine actually enqueues. -/
def ReachesW (w : Workflow) (id : String) : Prop :=
  Relation.ReflTransGen (fun a b => b ∈ succIds w a) w.starterId id

theorem initial_measure (w : Workflow) : bfsMeasure w [w.starterId] [] < fuelFor w := by
  simp only [bfsMeasure, unvisCount, fuelFor, List.length_cons, List.length_nil]
  have hfe : (dedupIds w).filter (fun i => !(([] : List String).contains i)) = dedupIds w :=
    List.filter_eq_self.mpr (fun a _ => rfl)
  rw [hfe]
  omega

theorem bfsRef_sound (w : Workflow) : ∀ id ∈ bfsRef w, ReachesW w id := by
  refine bfsGo_sound w (ReachesW w) ?_ (fuelFor w) [w.starterId] [] ?_ ?_
  · exact fun x hx y hy => Relation.ReflTransGen.tail hx hy
  · exact fun id hid => absurd hid (List.not_mem_nil id)
  · intro id hid
    rw [List.mem_singleton] at hid
    subst hid
    exact Relation.ReflTransGen.refl

theorem bfsRef_complete (w : Workflow) (hst : w.starterId ∈ dedupIds w) :
    ∀ id, ReachesW w id → id ∈ bfsRef w := by
  have hc := bfsGo_complete w (fuelFor w) [w.starterId] [] (initial_measure w)
    (fun id hid => by rw [List.mem_singleton] at hid; subst hid; exact hst)
    (fun x hx => absurd hx (List.not_mem_nil x))
  intro id hid
  induction hid with
  | refl => exact hc.1 w.starterId (List.mem_singleton.mpr rfl)
  | tail hxy hstep ih => exact hc.2 _ ih _ hstep

theorem bfsRef_nodup (w : Workflow) : (bfsRef w).Nodup :=
  bfsGo_nodup w (fuelFor w) [w.starterId] [] List.nodup_nil

/-- C6 (amended): on a clean full run — well-behaved progress callbacks,
no abort, a resolvable starter, and every block present and succeeding —
execution visits exactly the node ids reachable from the starter, each at
most once and no unreachable node ever, and the visitation order is the
deterministic breadth-first order `bfsRef`: dequeue order with ties among
a node's successors broken by NODE declaration order (the engine filters
`workflow.nodes`, not the edge list, when enqueuing successors).  The
spec's claim that ties are broken by edge declaration order is refuted by
`C6_counterexample`. -/
theorem C6_bfs_visits (cfg : EngCfg) (w : Workflow) (env : Env)
    (hsub : subscribersOk cfg) (habort : cfg.abortFrom = none)
    (s0 : WorkflowNode)
    (hs0 : List.find? (fun n => n.id == w.starterId) w.nodes = some s0)
    (hblocks : ∀ node, node ∈ w.nodes →
      ∃ run, cfg.registry node.type = some run ∧ ∀ ctx, ∃ sets res, run ctx = .ok sets res)
    (r : RunResult) (hr : executeWorkflowE cfg w env none = .ok r) :
    r.visitedOrder = bfsRef w ∧
    r.visitedOrder.Nodup ∧
    (∀ id, id ∈ r.visitedOrder ↔ ReachesW w id) := by
  obtain ⟨hlog, hnu⟩ := hsub
  have hs0id : s0.id = w.starterId := by
    have hb := List.find?_some hs0
    exact eq_of_beq hb
  have hstdedup : w.starterId ∈ dedupIds w := by
    rw [dedupIds, List.mem_dedup]
    exact List.mem_map.mpr ⟨s0, List.mem_of_find?_eq_some hs0, hs0id⟩
  have hempt : w.nodes.isEmpty = false := by
    cases hn : w.nodes with
    | nil => rw [hn] at hs0; exact absurd hs0 (by simp)
    | cons a l => rfl
  have hmain : r.visitedOrder = bfsRef w := by
    simp only [executeWorkflowE, logE, hlog, Option.bind, normSingle, hempt, Bool.false_eq_true, if_false, hs0] at hr
    rcases hloop : runLoop cfg w env (buildAliasMap w.nodes) none (fuelFor w)
        ⟨⟨⟨"exec", w.id, .running, [] ++ [⟨none, "🚀 Starting workflow: " ++ w.name, .info⟩], []⟩, [], []⟩, [s0.id], [], 0, false⟩
      with ⟨est, lexit⟩
    have hch := runLoop_charS cfg w env (buildAliasMap w.nodes) none hlog hnu (fuelFor w)
      ⟨⟨⟨"exec", w.id, .running, [] ++ [⟨none, "🚀 Starting workflow: " ++ w.name, .info⟩], []⟩, [], []⟩, [s0.id], [], 0, false⟩
      (fun id ne h => nomatch h) est lexit hloop
    have hvisits := runLoop_visits cfg w env (buildAliasMap w.nodes) hlog hnu habort hblocks (fuelFor w)
      ⟨⟨⟨"exec", w.id, .running, [] ++ [⟨none, "🚀 Starting workflow: " ++ w.name, .info⟩], []⟩, [], []⟩, [s0.id], [], 0, false⟩
      (fun id hid => by
        simp only [List.mem_singleton] at hid
        subst hid
        rw [hs0id, hs0]
        rfl)
    rw [hloop] at hr hvisits
    have hbfseq : bfsGo w (fuelFor w) [s0.id] [] = bfsRef w := by rw [bfsRef, hs0id]
    cases lexit with
    | drained =>
      simp only [] at hr
      have hst : est.core.ex.status = ExecStatus.running := (hch.1 (Or.inl rfl)).1
      rw [hst] at hr
      simp only [reduceIte, ne_eq, reduceCtorEq, not_false_eq_true, if_true, logE, hlog, setStatus] at hr
      injection hr with hr
      subst hr
      rw [← hbfseq, ← hvisits]
      try rfl
    | fuelOut =>
      simp only [] at hr
      have hst : est.core.ex.status = ExecStatus.running := (hch.1 (Or.inr rfl)).1
      rw [hst] at hr
      simp only [reduceIte, ne_eq, reduceCtorEq, not_false_eq_true, if_true, logE, hlog, setStatus] at hr
      injection hr with hr
      subst hr
      rw [← hbfseq, ← hvisits]
      try rfl
    | cancelled =>
      simp only [] at hr
      have hst : est.core.ex.status = ExecStatus.cancelled := (hch.2.1 rfl).1
      rw [hst] at hr
      simp only [ne_eq, not_true_eq_false, if_false, reduceIte] at hr
      injection hr with hr
      subst hr
      rw [← hbfseq, ← hvisits]
      try rfl
    | thrown m =>
      simp only [] at hr
      rw [outerCatchE_ok _ _ _ hlog] at hr
      injection hr with hr
      subst hr
      rw [← hbfseq, ← hvisits]
      try rfl
  refine ⟨hmain, hmain ▸ bfsRef_nodup w, fun id => ?_⟩
  rw [hmain]
  exact ⟨fun h => bfsRef_sound w id h, fun h => bfsRef_complete w hstdedup id h⟩

/-- Modelled from the spec: the successors of a node listed in EDGE
declaration order ("ties broken by edge declaration order"), as opposed to
the engine's node-declaration order. -/
def specSuccIdsEdge (w : Workflow) (id : String) : List String :=
  (w.edges.filter (fun e => e.source == id)).map (fun e => e.target)

/-- Modelled from the spec: breadth-first traversal by enqueue order in
which ties among a node's successors are broken by edge declaration
order. -/
def specBfsGoEdge (w : Workflow) : Nat → List String → List String → List String
  | 0, _, vis => vis
  | _ + 1, [], vis => vis
  | fuel + 1, q :: rest, vis =>
    if vis.contains q then specBfsGoEdge w fuel rest vis
    else specBfsGoEdge w fuel (rest ++ (specSuccIdsEdge w q).filter (fun i => !((vis ++ [q]).contains i))) (vis ++ [q])

/-- Modelled from the spec: the visit order the spec's tie-breaking rule
predicts. -/
def specBfsEdgeOrder (w : Workflow) : List String :=
  specBfsGoEdge w (fuelFor w) [w.starterId] []

def c6run : RunCtx → BlockResult := fun _ => .ok [] (.vObj .nil)

def c6cfg : EngCfg := ⟨fun _ => some c6run, fun _ => none, fun _ _ => none, none⟩

def tieW : Workflow :=
  ⟨"w", "W", "s",
   [⟨"s", "starter", .nil⟩, ⟨"B", "plain", .nil⟩, ⟨"C", "plain", .nil⟩],
   [⟨"e1", "s", "C"⟩, ⟨"e2", "s", "B"⟩]⟩

def c6r : RunResult := runResultD c6cfg tieW [] none

/-- C6 counterexample: in `tieW` the starter has the two successors `C`
and `B`, with the edge to `C` declared first but the node `B` declared
first.  The engine visits `s, B, C` (node-declaration order), while a
breadth-first traversal breaking ties by edge declaration order — what
the spec promises — would visit `s, C, B`. -/
theorem C6_counterexample :
    (runResultD c6cfg tieW [] none).visitedOrder = ["s", "B", "C"] ∧
    specBfsEdgeOrder tieW = ["s", "C", "B"] ∧
    (["s", "B", "C"] : List String) ≠ ["s", "C", "B"] :=
  ⟨rfl, rfl, by decide⟩

theorem C6_bfs_visits_witness :
    c6r.visitedOrder = bfsRef tieW ∧ c6r.visitedOrder.Nodup ∧
    (∀ id, id ∈ c6r.visitedOrder ↔ ReachesW tieW id) :=
  C6_bfs_visits c6cfg tieW [] ⟨fun _ => rfl, fun _ _ => rfl⟩ rfl ⟨"s", "starter", .nil⟩ rfl
    (fun node _ => ⟨c6run, rfl, fun ctx => ⟨[], .vObj .nil, rfl⟩⟩) c6r rfl

end Agen8
